import Mathlib

/-!
Verification of the avmap.io georeferencing pipeline.

This file gives a shallow embedding of the Python sources
`pipeline/georef.py`, `pipeline/vectorize.py` and
`tools/autogeoref_from_polygon.py`, and proves the frozen claims about
them.

Modelling conventions:
* IEEE-754 double values are modelled by `FP`: a rational number, the two
  infinities, or NaN.  Overflow to infinity is not modelled (rational
  arithmetic never overflows); NaN and infinity propagation through
  `+ - * /`, square root and cosine follow the IEEE rules.
* The float square root is modelled by a computable floor-based rational
  approximation `ratSqrt`; the float cosine by a truncated Taylor series.
  Every claim proved below depends only on the finiteness structure,
  zero-preservation and permutation-invariance of these functions, never
  on their numeric values.
* External library calls (`cv2.findHomography`, `numpy.linalg.svd`) are
  modelled as oracle parameters; library contracts (e.g. orthogonality of
  SVD factors) appear as explicit hypotheses.
-/

/-- Model of an IEEE-754 floating point value: a finite rational, one of
the two infinities, or NaN.  (The sign of zero and overflow are not
modelled.) -/
inductive FP where
  | num : ℚ → FP
  | inf : FP
  | negInf : FP
  | nan : FP
deriving DecidableEq, Repr

namespace FP

/-- IEEE addition on the model: NaN propagates, `inf + negInf = NaN`. -/
def add : FP → FP → FP
  | nan, _ => nan
  | _, nan => nan
  | num a, num b => num (a + b)
  | num _, inf => inf
  | inf, num _ => inf
  | num _, negInf => negInf
  | negInf, num _ => negInf
  | inf, inf => inf
  | negInf, negInf => negInf
  | inf, negInf => nan
  | negInf, inf => nan

/-- IEEE negation. -/
def neg : FP → FP
  | num a => num (-a)
  | inf => negInf
  | negInf => inf
  | nan => nan

/-- IEEE subtraction, `a - b = a + (-b)`. -/
def sub (a b : FP) : FP := add a (neg b)

/-- IEEE multiplication: NaN propagates, `0 * inf = NaN`, signs as usual. -/
def mul : FP → FP → FP
  | nan, _ => nan
  | _, nan => nan
  | num a, num b => num (a * b)
  | num a, inf => if 0 < a then inf else if a < 0 then negInf else nan
  | num a, negInf => if 0 < a then negInf else if a < 0 then inf else nan
  | inf, num b => if 0 < b then inf else if b < 0 then negInf else nan
  | negInf, num b => if 0 < b then negInf else if b < 0 then inf else nan
  | inf, inf => inf
  | inf, negInf => negInf
  | negInf, inf => negInf
  | negInf, negInf => inf

/-- IEEE division: NaN propagates, `0/0 = NaN`, `x/0 = ±inf` for `x ≠ 0`
(the model has only a positive zero), `x/inf = 0`, `inf/inf = NaN`. -/
def div : FP → FP → FP
  | nan, _ => nan
  | _, nan => nan
  | num a, num b =>
      if b = 0 then (if a = 0 then nan else if 0 < a then inf else negInf)
      else num (a / b)
  | num _, inf => num 0
  | num _, negInf => num 0
  | inf, num b => if b < 0 then negInf else inf
  | negInf, num b => if b < 0 then inf else negInf
  | inf, inf => nan
  | inf, negInf => nan
  | negInf, inf => nan
  | negInf, negInf => nan

/-- IEEE strict comparison `<`: any comparison involving NaN is false. -/
def lt : FP → FP → Bool
  | nan, _ => false
  | _, nan => false
  | num a, num b => decide (a < b)
  | num _, inf => true
  | inf, num _ => false
  | negInf, num _ => true
  | num _, negInf => false
  | negInf, inf => true
  | inf, negInf => false
  | inf, inf => false
  | negInf, negInf => false

/-- IEEE comparison `≤`: any comparison involving NaN is false. -/
def le : FP → FP → Bool
  | nan, _ => false
  | _, nan => false
  | num a, num b => decide (a ≤ b)
  | num _, inf => true
  | inf, num _ => false
  | negInf, num _ => true
  | num _, negInf => false
  | negInf, inf => true
  | inf, negInf => false
  | inf, inf => true
  | negInf, negInf => true

/-- `numpy.isfinite`: true exactly on finite numbers. -/
def isFinite : FP → Bool
  | num _ => true
  | _ => false

instance : Add FP := ⟨add⟩
instance : Neg FP := ⟨neg⟩
instance : Sub FP := ⟨sub⟩
instance : Mul FP := ⟨mul⟩
instance : Div FP := ⟨div⟩
instance : Zero FP := ⟨num 0⟩

theorem add_def (a b : FP) : a + b = add a b := rfl

theorem mul_def (a b : FP) : a * b = mul a b := rfl

theorem sub_def (a b : FP) : a - b = sub a b := rfl

theorem div_def (a b : FP) : a / b = div a b := rfl

theorem zero_def : (0 : FP) = num 0 := rfl

protected theorem add_comm (a b : FP) : a + b = b + a := by
  cases a <;> cases b <;> simp [add_def, add] <;> ring

protected theorem add_assoc (a b c : FP) : a + b + c = a + (b + c) := by
  cases a <;> cases b <;> cases c <;> simp [add_def, add] <;> ring

protected theorem add_zero (a : FP) : a + 0 = a := by
  cases a <;> simp [add_def, zero_def, add]

protected theorem zero_add (a : FP) : 0 + a = a := by
  cases a <;> simp [add_def, zero_def, add]

instance : AddCommMonoid FP where
  add_assoc := FP.add_assoc
  zero_add := FP.zero_add
  add_zero := FP.add_zero
  add_comm := FP.add_comm
  nsmul := nsmulRec

end FP

/-- Largest `k ≤ fuel` with `k * k ≤ n` (0 if none): helper for the
floor square root. -/
def natSqrtAux : Nat → Nat → Nat
  | 0, _ => 0
  | fuel + 1, n => if (fuel + 1) * (fuel + 1) ≤ n then fuel + 1 else natSqrtAux fuel n

/-- Floor integer square root, by structural recursion (so that concrete
instances reduce). -/
def natSqrt (n : Nat) : Nat := natSqrtAux n n

/-- Computable rational model of the float square root: the value is a
floor-based approximation; the proofs below use only that it is total
and that it vanishes exactly at `0` on nonnegative inputs. -/
def ratSqrt (q : ℚ) : ℚ := (natSqrt (q.num.toNat * q.den) : ℚ) / (q.den : ℚ)

theorem natSqrtAux_eq_zero_iff (fuel n : Nat) :
    natSqrtAux fuel n = 0 ↔ (∀ k, 1 ≤ k → k ≤ fuel → ¬ k * k ≤ n) := by
  induction fuel with
  | zero => simp [natSqrtAux]; omega
  | succ m ih =>
      by_cases h : (m + 1) * (m + 1) ≤ n
      · simp only [natSqrtAux, if_pos h]
        constructor
        · omega
        · intro hall
          exact absurd h (hall (m + 1) (by omega) (by omega))
      · simp only [natSqrtAux, if_neg h, ih]
        constructor
        · intro hall k h1 h2
          rcases Nat.lt_or_ge k (m + 1) with hk | hk
          · exact hall k h1 (by omega)
          · have : k = m + 1 := by omega
            subst this; exact h
        · intro hall k h1 h2
          exact hall k h1 (by omega)

theorem natSqrt_eq_zero_iff (n : Nat) : natSqrt n = 0 ↔ n = 0 := by
  unfold natSqrt
  rw [natSqrtAux_eq_zero_iff]
  constructor
  · intro hall
    by_contra hn
    exact hall 1 (by omega) (by omega) (by omega)
  · intro hn; subst hn; intro k h1 h2; omega

theorem ratSqrt_zero : ratSqrt 0 = 0 := by
  norm_num [ratSqrt, natSqrt, natSqrtAux]

theorem ratSqrt_eq_zero_iff (q : ℚ) (hq : 0 ≤ q) : ratSqrt q = 0 ↔ q = 0 := by
  unfold ratSqrt
  have hden : (q.den : ℚ) ≠ 0 := by exact_mod_cast q.den_nz
  rw [div_eq_zero_iff]
  constructor
  · rintro (h | h)
    · have hz : natSqrt (q.num.toNat * q.den) = 0 := by exact_mod_cast h
      rw [natSqrt_eq_zero_iff] at hz
      have hnum : q.num.toNat = 0 := by
        rcases Nat.mul_eq_zero.mp hz with h1 | h1
        · exact h1
        · exact absurd h1 q.den_nz
      have hqnum : q.num = 0 := by
        have h0 : 0 ≤ q.num := Rat.num_nonneg.mpr hq
        omega
      exact Rat.zero_iff_num_zero.mpr hqnum
    · exact absurd h hden
  · intro h; subst h
    left
    norm_num [natSqrt, natSqrtAux]

namespace FP

/-- IEEE square root on the model: NaN for negative and NaN arguments,
`inf` for `inf`, and the `ratSqrt` approximation on finite nonnegative
numbers. -/
def sqrt : FP → FP
  | num a => if a < 0 then nan else num (ratSqrt a)
  | inf => inf
  | negInf => nan
  | nan => nan

/-- Rational model of cosine (truncated Taylor series); only its
finiteness is ever used. -/
def cosQ (x : ℚ) : ℚ := 1 - x ^ 2 / 2 + x ^ 4 / 24 - x ^ 6 / 720

/-- IEEE cosine on the model: finite on finite arguments, NaN on
infinities and NaN. -/
def cos : FP → FP
  | num a => num (cosQ a)
  | _ => nan

/-- The IEEE-754 double closest to π, as an exact rational (this is the
value `numpy.deg2rad` multiplies by). -/
def piRat : ℚ := 884279719003555 / 281474976710656

/-- `numpy.deg2rad`: multiplication by π/180. -/
def deg2rad (x : FP) : FP := x * num (piRat / 180)

/-- `numpy.mean`: sum divided by length (`NaN` on the empty list, as in
numpy). -/
def mean (l : List FP) : FP := l.sum / num (l.length : ℚ)

theorem sum_def (l : List FP) : l.sum = l.foldr add (num 0) := by
  induction l with
  | nil => rfl
  | cons x xs ih => simp [List.sum_cons, ih]; rfl

end FP

/-- A 3×3 float matrix, as returned by `cv2.findHomography`. -/
structure M3 where
  h00 : FP
  h01 : FP
  h02 : FP
  h10 : FP
  h11 : FP
  h12 : FP
  h20 : FP
  h21 : FP
  h22 : FP
deriving DecidableEq, Repr

/-- Embedding of `georef.score_fit` (georef.py lines 146-157): project
every source point through the homography `H`, take residuals against
the destination points in degrees, convert to meters with the
equirectangular factors anchored at the mean destination latitude, and
return the root mean square. -/
def score_fit (H : M3) (src dst : List (FP × FP)) : FP :=
  let preds := src.map (fun p =>
    let wght := H.h20 * p.1 + H.h21 * p.2 + H.h22
    ((H.h00 * p.1 + H.h01 * p.2 + H.h02) / wght,
     (H.h10 * p.1 + H.h11 * p.2 + H.h12) / wght))
  let resid := List.zipWith (fun pr d => (pr.1 - d.1, pr.2 - d.2)) preds dst
  let lat0 := FP.mean (dst.map Prod.snd)
  let sq := resid.map (fun d =>
    let mx := d.1 * FP.num 111320 * FP.cos (FP.deg2rad lat0)
    let my := d.2 * FP.num 110540
    mx * mx + my * my)
  FP.sqrt (FP.mean sq)

/-- Embedding of the per-candidate RMSE recording in `georef.main`
(georef.py lines 243-249): RMSE is `+inf` when `cv2.findHomography`
returned no matrix, and otherwise the `score_fit` value of the returned
matrix. -/
def recordRmse (fit : Option M3) (src dst : List (FP × FP)) : FP :=
  match fit with
  | none => FP.inf
  | some H => score_fit H src dst

/-- One entry of the `tested` list in `georef.main` (georef.py line 249):
`(rmse, H, label, dst)`. -/
structure Tested where
  rmse : FP
  hom : Option M3
  label : String
  dst : List (FP × FP)
deriving DecidableEq

/-- One CRS candidate proposed to the selection loop of `georef.main`
(georef.py line 238): a label and the raw geo columns. -/
structure GeoCand where
  label : String
  lons : List FP
  lats : List FP
deriving DecidableEq

/-- Embedding of the candidate loop of `georef.main` (georef.py lines
236-249): optionally swap lat/lon, build the destination point set, fit
a homography through the oracle `findH` (modelling
`cv2.findHomography`), and record the candidate with its RMSE. -/
def buildTested (findH : List (FP × FP) → List (FP × FP) → Option M3)
    (src : List (FP × FP)) (swapLatlon : Bool) (cands : List GeoCand) :
    List Tested :=
  cands.map (fun c =>
    let lon := if swapLatlon then c.lats else c.lons
    let lat := if swapLatlon then c.lons else c.lats
    let lbl := if swapLatlon then c.label ++ " + swap_latlon" else c.label
    let dst := lon.zip lat
    let fit := findH src dst
    ⟨recordRmse fit src dst, fit, lbl, dst⟩)

/-- The insertion position CPython's binary insertion computes on a
consistently ordered run: a later-encountered element is inserted after
every entry whose key is not strictly greater, so it lands after equal
keys (stability). -/
def pyInsertLater (a : Tested) : List Tested → List Tested
  | [] => [a]
  | b :: l => if FP.lt a.rmse b.rmse then a :: b :: l else b :: pyInsertLater a l

/-- CPython `count_run`, ascending arm: extend the run while the next
key is not `<` the previous one; returns the run tail after `prev` and
the unconsumed remainder. -/
def countRunAsc (prev : Tested) : List Tested → List Tested × List Tested
  | [] => ([], [])
  | x :: xs =>
      if FP.lt x.rmse prev.rmse then ([], x :: xs)
      else
        let p := countRunAsc x xs
        (x :: p.1, p.2)

/-- CPython `count_run`, strictly descending arm: extend the run while
the next key is `<` the previous one. -/
def countRunDesc (prev : Tested) : List Tested → List Tested × List Tested
  | [] => ([], [])
  | x :: xs =>
      if FP.lt x.rmse prev.rmse then
        let p := countRunDesc x xs
        (x :: p.1, p.2)
      else ([], x :: xs)

/-- Model of `tested.sort(key=lambda t: t[0])` (georef.py line 252),
following CPython's list sort on fewer than 64 elements: scan the
initial run with `<` on the keys, reverse it when it is strictly
descending, then insert each remaining element after all entries with a
not-strictly-greater key (the position CPython's binary insertion finds
on a consistently ordered run).  On NaN-free keys this is the unique
stable ascending order Timsort produces at every length; with NaN keys
it is exact for the lists `main` can build — one or two candidates,
consumed entirely by the initial run scan, so a leading NaN candidate
stays in front, exactly as in CPython. -/
def pySort (l : List Tested) : List Tested :=
  match l with
  | [] => []
  | [x] => [x]
  | x0 :: x1 :: rest =>
      if FP.lt x1.rmse x0.rmse then
        let p := countRunDesc x1 rest
        p.2.foldl (fun acc a => pyInsertLater a acc) ((x0 :: x1 :: p.1).reverse)
      else
        let p := countRunAsc x1 rest
        p.2.foldl (fun acc a => pyInsertLater a acc) (x0 :: x1 :: p.1)

/-- Embedding of the selection in `georef.main` (georef.py lines
252-255): sort by RMSE, take the first entry, and fail when its RMSE is
not finite or it has no matrix. -/
def selectTransform (tested : List Tested) : Except String Tested :=
  match pySort tested with
  | [] => .error "IndexError: list index out of range"
  | best :: _ =>
      if best.rmse.isFinite && best.hom.isSome then .ok best
      else .error "Homography failed for all candidates. Check GCPs."

namespace FP

theorem le_refl_of_ne_nan (a : FP) (h : a ≠ nan) : le a a = true := by
  cases a <;> simp [le] at h ⊢

theorem le_total_of_ne_nan (a b : FP) (ha : a ≠ nan) (hb : b ≠ nan) :
    le a b = true ∨ le b a = true := by
  cases a <;> cases b <;> simp [le] at ha hb ⊢
  exact le_total _ _

theorem le_trans_fp (a b c : FP) (h1 : le a b = true) (h2 : le b c = true) :
    le a c = true := by
  cases a <;> cases b <;> cases c <;> simp [le] at h1 h2 ⊢
  exact le_trans h1 h2

theorem lt_nan_right (x : FP) : lt x nan = false := by
  cases x <;> rfl

theorem le_of_lt_fp (a b : FP) (h : lt a b = true) : le a b = true := by
  cases a <;> cases b <;> simp [lt, le] at h ⊢ <;> linarith

theorem lt_imp_le_rev_false (a b : FP) (h : lt a b = true) : le b a = false := by
  cases a <;> cases b <;> simp [lt, le] at h ⊢ <;> linarith

theorem le_of_lt_eq_false (a b : FP) (ha : a ≠ nan) (hb : b ≠ nan)
    (h : lt a b = false) : le b a = true := by
  cases a <;> cases b <;> simp [lt, le] at ha hb h ⊢ <;> linarith

theorem lt_trans_fp (a b c : FP) (h1 : lt a b = true) (h2 : lt b c = true) :
    lt a c = true := by
  cases a <;> cases b <;> cases c <;> simp [lt] at h1 h2 ⊢ <;> linarith

theorem sqrt_ne_negInf (x : FP) : sqrt x ≠ negInf := by
  cases x <;> simp [sqrt]
  split <;> simp

end FP

theorem chain_pairwise_of_trans {α : Type} {R : α → α → Prop}
    (htr : ∀ a b c, R a b → R b c → R a c) (a : α) (l : List α)
    (h : List.Chain R a l) : (a :: l).Pairwise R := by
  induction l generalizing a with
  | nil => simp
  | cons b t ih =>
      rw [List.chain_cons] at h
      have hp := ih b h.2
      rw [List.pairwise_cons]
      refine ⟨?_, hp⟩
      intro x hx
      rcases List.mem_cons.mp hx with rfl | hx2
      · exact h.1
      · exact htr _ _ _ h.1 ((List.pairwise_cons.mp hp).1 x hx2)

theorem pyInsertLater_ne_nil (a : Tested) (l : List Tested) :
    pyInsertLater a l ≠ [] := by
  cases l with
  | nil => simp [pyInsertLater]
  | cons b t =>
      simp only [pyInsertLater]
      split <;> simp

theorem foldl_pyInsertLater_ne_nil (rem : List Tested) (acc : List Tested)
    (h : acc ≠ []) :
    rem.foldl (fun acc a => pyInsertLater a acc) acc ≠ [] := by
  induction rem generalizing acc with
  | nil => exact h
  | cons a t ih => exact ih _ (pyInsertLater_ne_nil a acc)

theorem pySort_eq_nil_iff (l : List Tested) : pySort l = [] ↔ l = [] := by
  match l with
  | [] => simp [pySort]
  | [x] => simp [pySort]
  | x0 :: x1 :: rest =>
      simp only [pySort]
      constructor
      · intro h
        exfalso
        by_cases hc : FP.lt x1.rmse x0.rmse = true
        · rw [if_pos hc] at h
          exact foldl_pyInsertLater_ne_nil _ _ (by simp) h
        · rw [if_neg hc] at h
          exact foldl_pyInsertLater_ne_nil _ _ (by simp) h
      · intro h
        exact absurd h (by simp)

theorem find?_append_some {p : Tested → Bool} (l1 l2 : List Tested) (v : Tested)
    (h : l1.find? p = some v) : (l1 ++ l2).find? p = some v := by
  induction l1 with
  | nil => simp [List.find?] at h
  | cons a t ih =>
      cases hpa : p a with
      | true =>
          rw [List.find?_cons_of_pos _ hpa] at h
          rw [List.cons_append, List.find?_cons_of_pos _ hpa]
          exact h
      | false =>
          rw [List.find?_cons_of_neg _ (by simp [hpa])] at h
          rw [List.cons_append, List.find?_cons_of_neg _ (by simp [hpa])]
          exact ih h

theorem find?_append_all_false {p : Tested → Bool} (l1 l2 : List Tested)
    (h : ∀ x ∈ l1, p x = false) : (l1 ++ l2).find? p = l2.find? p := by
  induction l1 with
  | nil => simp
  | cons a t ih =>
      rw [List.cons_append, List.find?_cons_of_neg _ (by simp [h a (by simp)])]
      exact ih (fun x hx => h x (by simp [hx]))

theorem pyInsertLater_perm (a : Tested) (l : List Tested) :
    (pyInsertLater a l).Perm (a :: l) := by
  induction l with
  | nil => simp [pyInsertLater]
  | cons b t ih =>
      simp only [pyInsertLater]
      split
      · exact List.Perm.refl _
      · exact (ih.cons b).trans (List.Perm.swap a b t)

theorem pyInsertLater_pairwise (a : Tested) (l : List Tested)
    (hna : a.rmse ≠ FP.nan) (hnl : ∀ t ∈ l, t.rmse ≠ FP.nan)
    (hl : l.Pairwise (fun u v => FP.le u.rmse v.rmse = true)) :
    (pyInsertLater a l).Pairwise (fun u v => FP.le u.rmse v.rmse = true) := by
  induction l with
  | nil => simp [pyInsertLater]
  | cons b t ih =>
      rw [List.pairwise_cons] at hl
      simp only [pyInsertLater]
      split_ifs with hab
      · rw [List.pairwise_cons]
        refine ⟨?_, List.pairwise_cons.mpr hl⟩
        intro x hx
        rcases List.mem_cons.mp hx with rfl | hx2
        · exact FP.le_of_lt_fp _ _ hab
        · exact FP.le_trans_fp _ _ _ (FP.le_of_lt_fp _ _ hab) (hl.1 x hx2)
      · rw [List.pairwise_cons]
        refine ⟨?_, ih (fun u hu => hnl u (by simp [hu])) hl.2⟩
        intro x hx
        rcases List.mem_cons.mp ((pyInsertLater_perm a t).mem_iff.mp hx)
          with rfl | hx2
        · exact FP.le_of_lt_eq_false _ _ hna (hnl b (by simp))
            (by simpa using hab)
        · exact hl.1 x hx2

/-- Invariant of the binary-insertion phase: inserting the remaining
elements into a sorted arrangement of the consumed prefix yields a list
whose head is the first-encountered minimum of the whole input. -/
theorem foldl_insert_spec (remaining : List Tested) :
    ∀ (consumed acc : List Tested),
      (∀ t ∈ consumed, t.rmse ≠ FP.nan) →
      (∀ t ∈ remaining, t.rmse ≠ FP.nan) →
      acc.Perm consumed →
      acc.Pairwise (fun u v => FP.le u.rmse v.rmse = true) →
      (∀ b r2, acc = b :: r2 →
        consumed.find? (fun u => FP.le u.rmse b.rmse) = some b) →
      ∀ b r2, remaining.foldl (fun acc a => pyInsertLater a acc) acc = b :: r2 →
        (b ∈ consumed ++ remaining ∧
         (∀ u ∈ consumed ++ remaining, FP.le b.rmse u.rmse = true) ∧
         (consumed ++ remaining).find? (fun u => FP.le u.rmse b.rmse) = some b) := by
  induction remaining with
  | nil =>
      intro consumed acc hnc hnr hperm hsorted hfirst b r2 hfold
      simp only [List.foldl_nil] at hfold
      subst hfold
      refine ⟨?_, ?_, ?_⟩
      · simpa using hperm.mem_iff.mp (by simp)
      · intro u hu
        simp only [List.append_nil] at hu
        have hu2 : u ∈ b :: r2 := hperm.symm.mem_iff.mp hu
        rcases List.mem_cons.mp hu2 with rfl | hu3
        · exact FP.le_refl_of_ne_nan _ (hnc u hu)
        · exact (List.pairwise_cons.mp hsorted).1 u hu3
      · simpa using hfirst b r2 rfl
  | cons a rem ih =>
      intro consumed acc hnc hnr hperm hsorted hfirst b r2 hfold
      simp only [List.foldl_cons] at hfold
      have hna : a.rmse ≠ FP.nan := hnr a (by simp)
      have hnrem : ∀ t ∈ rem, t.rmse ≠ FP.nan := fun t ht => hnr t (by simp [ht])
      have hacc_nan : ∀ t ∈ acc, t.rmse ≠ FP.nan :=
        fun t ht => hnc t (hperm.mem_iff.mp ht)
      have hnc2 : ∀ t ∈ consumed ++ [a], t.rmse ≠ FP.nan := by
        intro t ht
        rcases List.mem_append.mp ht with ht1 | ht1
        · exact hnc t ht1
        · simp at ht1
          subst ht1
          exact hna
      have hperm2 : (pyInsertLater a acc).Perm (consumed ++ [a]) :=
        ((pyInsertLater_perm a acc).trans (hperm.cons a)).trans
          (List.perm_append_singleton a consumed).symm
      have hsorted2 := pyInsertLater_pairwise a acc hna hacc_nan hsorted
      have hfirst2 : ∀ b2 r3, pyInsertLater a acc = b2 :: r3 →
          (consumed ++ [a]).find? (fun u => FP.le u.rmse b2.rmse) = some b2 := by
        intro b2 r3 hins
        cases acc with
        | nil =>
            have hcons : consumed = [] := hperm.symm.eq_nil
            subst hcons
            simp only [pyInsertLater] at hins
            injection hins with h1 h2
            subst h1
            simp only [List.nil_append]
            exact List.find?_cons_of_pos _ (FP.le_refl_of_ne_nan _ hna)
        | cons h0 t0 =>
            have hh0 : h0.rmse ≠ FP.nan := hacc_nan h0 (by simp)
            have hmin0 : ∀ u ∈ consumed, FP.le h0.rmse u.rmse = true := by
              intro u hu
              have hu2 : u ∈ h0 :: t0 := hperm.symm.mem_iff.mp hu
              rcases List.mem_cons.mp hu2 with rfl | hu3
              · exact FP.le_refl_of_ne_nan _ hh0
              · exact (List.pairwise_cons.mp hsorted).1 u hu3
            simp only [pyInsertLater] at hins
            by_cases hah : FP.lt a.rmse h0.rmse = true
            · rw [if_pos hah] at hins
              injection hins with h1 h2
              subst h1
              rw [find?_append_all_false]
              · exact List.find?_cons_of_pos _ (FP.le_refl_of_ne_nan _ hna)
              · intro u hu
                cases hx : FP.le u.rmse a.rmse with
                | false => rfl
                | true =>
                    exfalso
                    have hle1 : FP.le h0.rmse a.rmse = true :=
                      FP.le_trans_fp _ _ _ (hmin0 u hu) hx
                    have hle2 : FP.le h0.rmse a.rmse = false :=
                      FP.lt_imp_le_rev_false _ _ hah
                    rw [hle1] at hle2
                    exact Bool.noConfusion hle2
            · rw [if_neg hah] at hins
              injection hins with h1 h2
              subst h1
              exact find?_append_some _ _ _ (hfirst h0 t0 rfl)
      have := ih (consumed ++ [a]) (pyInsertLater a acc) hnc2 hnrem hperm2
        hsorted2 hfirst2 b r2 hfold
      have hassoc : consumed ++ a :: rem = (consumed ++ [a]) ++ rem := by simp
      rw [hassoc]
      exact this

theorem countRunAsc_spec (l : List Tested) :
    ∀ (prev : Tested),
      l = (countRunAsc prev l).1 ++ (countRunAsc prev l).2 ∧
      (prev.rmse ≠ FP.nan → (∀ t ∈ l, t.rmse ≠ FP.nan) →
        List.Chain (fun u v => FP.le u.rmse v.rmse = true) prev
          (countRunAsc prev l).1) := by
  induction l with
  | nil =>
      intro prev
      simp [countRunAsc]
  | cons x xs ih =>
      intro prev
      simp only [countRunAsc]
      by_cases hx : FP.lt x.rmse prev.rmse = true
      · rw [if_pos hx]
        exact ⟨rfl, fun _ _ => List.Chain.nil⟩
      · rw [if_neg hx]
        refine ⟨?_, ?_⟩
        · have := (ih x).1
          simpa using congrArg (fun t => x :: t) this
        · intro hp hall
          rw [List.chain_cons]
          refine ⟨?_, (ih x).2 (hall x (by simp)) (fun t ht => hall t (by simp [ht]))⟩
          exact FP.le_of_lt_eq_false _ _ (hall x (by simp)) hp (by simpa using hx)

theorem countRunDesc_spec (l : List Tested) :
    ∀ (prev : Tested),
      l = (countRunDesc prev l).1 ++ (countRunDesc prev l).2 ∧
      List.Chain (fun u v => FP.lt v.rmse u.rmse = true) prev
        (countRunDesc prev l).1 := by
  induction l with
  | nil =>
      intro prev
      simp [countRunDesc]
  | cons x xs ih =>
      intro prev
      simp only [countRunDesc]
      by_cases hx : FP.lt x.rmse prev.rmse = true
      · rw [if_pos hx]
        refine ⟨?_, ?_⟩
        · have := (ih x).1
          simpa using congrArg (fun t => x :: t) this
        · rw [List.chain_cons]
          exact ⟨hx, (ih x).2⟩
      · rw [if_neg hx]
        exact ⟨rfl, List.Chain.nil⟩

/-- The head of the modelled sort is an entry of minimal RMSE, and among
entries of equal RMSE it is the first-encountered one (stability), for
NaN-free keys. -/
theorem pySort_head_spec (l : List Tested) (hnan : ∀ t ∈ l, t.rmse ≠ FP.nan)
    (b : Tested) (rest : List Tested) (h : pySort l = b :: rest) :
    b ∈ l ∧ (∀ u ∈ l, FP.le b.rmse u.rmse = true) ∧
      l.find? (fun u => FP.le u.rmse b.rmse) = some b := by
  match l, hnan, h with
  | [], hnan, h => simp [pySort] at h
  | [x], hnan, h =>
      simp only [pySort] at h
      injection h with h1 h2
      subst h1
      have hx : x.rmse ≠ FP.nan := hnan x (by simp)
      refine ⟨by simp, ?_, List.find?_cons_of_pos _ (FP.le_refl_of_ne_nan _ hx)⟩
      intro u hu
      simp at hu
      subst hu
      exact FP.le_refl_of_ne_nan _ hx
  | x0 :: x1 :: rest0, hnan, h =>
      have hn0 : x0.rmse ≠ FP.nan := hnan x0 (by simp)
      have hn1 : x1.rmse ≠ FP.nan := hnan x1 (by simp)
      have hnr : ∀ t ∈ rest0, t.rmse ≠ FP.nan := fun t ht => hnan t (by simp [ht])
      simp only [pySort] at h
      by_cases hlt : FP.lt x1.rmse x0.rmse = true
      · -- strictly descending initial run, reversed
        rw [if_pos hlt] at h
        obtain ⟨hsplit, hchain⟩ := countRunDesc_spec rest0 x1
        have hnrun : ∀ t ∈ (countRunDesc x1 rest0).1, t.rmse ≠ FP.nan := by
          intro t ht
          exact hnr t (hsplit ▸ List.mem_append.mpr (Or.inl ht))
        have hdesc : (x0 :: x1 :: (countRunDesc x1 rest0).1).Pairwise
            (fun u v => FP.lt v.rmse u.rmse = true) := by
          apply chain_pairwise_of_trans
          · intro a b c h1 h2
            exact FP.lt_trans_fp _ _ _ h2 h1
          · rw [List.chain_cons]
            exact ⟨hlt, hchain⟩
        have hsorted0 : ((x0 :: x1 :: (countRunDesc x1 rest0).1).reverse).Pairwise
            (fun u v => FP.le u.rmse v.rmse = true) := by
          rw [List.pairwise_reverse]
          exact hdesc.imp (fun hx => FP.le_of_lt_fp _ _ hx)
        have hfirst0 : ∀ b2 r2,
            (x0 :: x1 :: (countRunDesc x1 rest0).1).reverse = b2 :: r2 →
            (x0 :: x1 :: (countRunDesc x1 rest0).1).find?
              (fun u => FP.le u.rmse b2.rmse) = some b2 := by
          intro b2 r2 hrev
          have hp : x0 :: x1 :: (countRunDesc x1 rest0).1 = r2.reverse ++ [b2] := by
            have := congrArg List.reverse hrev
            simpa using this
          have hb2mem : b2 ∈ x0 :: x1 :: (countRunDesc x1 rest0).1 := by
            rw [hp]
            simp
          have hb2nan : b2.rmse ≠ FP.nan := by
            rcases List.mem_cons.mp hb2mem with rfl | hm
            · exact hn0
            rcases List.mem_cons.mp hm with rfl | hm2
            · exact hn1
            · exact hnrun b2 hm2
          rw [hp]
          rw [find?_append_all_false]
          · exact List.find?_cons_of_pos _ (FP.le_refl_of_ne_nan _ hb2nan)
          · intro u hu
            have hlt2 : FP.lt b2.rmse u.rmse = true := by
              have hpw := hp ▸ hdesc
              exact (List.pairwise_append.mp hpw).2.2 u hu b2 (by simp)
            exact FP.lt_imp_le_rev_false _ _ hlt2
        have hmain := foldl_insert_spec (countRunDesc x1 rest0).2
          (x0 :: x1 :: (countRunDesc x1 rest0).1)
          ((x0 :: x1 :: (countRunDesc x1 rest0).1).reverse)
          (by
            intro t ht
            rcases List.mem_cons.mp ht with rfl | hm
            · exact hn0
            rcases List.mem_cons.mp hm with rfl | hm2
            · exact hn1
            · exact hnrun t hm2)
          (by
            intro t ht
            exact hnr t (hsplit ▸ List.mem_append.mpr (Or.inr ht)))
          (List.reverse_perm _) hsorted0 hfirst0 b rest h
        have hl : x0 :: x1 :: rest0
            = (x0 :: x1 :: (countRunDesc x1 rest0).1) ++ (countRunDesc x1 rest0).2 := by
          simp [← hsplit]
        rw [hl]
        exact hmain
      · -- weakly ascending initial run
        rw [if_neg hlt] at h
        obtain ⟨hsplit, hchain⟩ := countRunAsc_spec rest0 x1
        have hchain2 := hchain hn1 hnr
        have hnrun : ∀ t ∈ (countRunAsc x1 rest0).1, t.rmse ≠ FP.nan := by
          intro t ht
          exact hnr t (hsplit ▸ List.mem_append.mpr (Or.inl ht))
        have hsorted0 : (x0 :: x1 :: (countRunAsc x1 rest0).1).Pairwise
            (fun u v => FP.le u.rmse v.rmse = true) := by
          apply chain_pairwise_of_trans
          · intro a b c h1 h2
            exact FP.le_trans_fp _ _ _ h1 h2
          · rw [List.chain_cons]
            refine ⟨?_, hchain2⟩
            exact FP.le_of_lt_eq_false _ _ hn1 hn0 (by simpa using hlt)
        have hfirst0 : ∀ b2 r2,
            x0 :: x1 :: (countRunAsc x1 rest0).1 = b2 :: r2 →
            (x0 :: x1 :: (countRunAsc x1 rest0).1).find?
              (fun u => FP.le u.rmse b2.rmse) = some b2 := by
          intro b2 r2 hcons
          injection hcons with h1 h2
          subst h1
          exact List.find?_cons_of_pos _ (FP.le_refl_of_ne_nan _ hn0)
        have hmain := foldl_insert_spec (countRunAsc x1 rest0).2
          (x0 :: x1 :: (countRunAsc x1 rest0).1)
          (x0 :: x1 :: (countRunAsc x1 rest0).1)
          (by
            intro t ht
            rcases List.mem_cons.mp ht with rfl | hm
            · exact hn0
            rcases List.mem_cons.mp hm with rfl | hm2
            · exact hn1
            · exact hnrun t hm2)
          (by
            intro t ht
            exact hnr t (hsplit ▸ List.mem_append.mpr (Or.inr ht)))
          (List.Perm.refl _) hsorted0 hfirst0 b rest h
        have hl : x0 :: x1 :: rest0
            = (x0 :: x1 :: (countRunAsc x1 rest0).1) ++ (countRunAsc x1 rest0).2 := by
          simp [← hsplit]
        rw [hl]
        exact hmain

theorem mem_buildTested (findH : List (FP × FP) → List (FP × FP) → Option M3)
    (src : List (FP × FP)) (swapLatlon : Bool) (cands : List GeoCand)
    (t : Tested) (ht : t ∈ buildTested findH src swapLatlon cands) :
    t.rmse = recordRmse t.hom src t.dst := by
  simp only [buildTested, List.mem_map] at ht
  obtain ⟨c, _, rfl⟩ := ht
  rfl

theorem buildTested_rmse_ne_negInf
    (findH : List (FP × FP) → List (FP × FP) → Option M3)
    (src : List (FP × FP)) (swapLatlon : Bool) (cands : List GeoCand)
    (t : Tested) (ht : t ∈ buildTested findH src swapLatlon cands) :
    t.rmse ≠ FP.negInf := by
  rw [mem_buildTested findH src swapLatlon cands t ht]
  cases t.hom with
  | none => simp [recordRmse]
  | some H =>
      simp only [recordRmse, score_fit]
      exact FP.sqrt_ne_negInf _

theorem buildTested_hom_isSome
    (findH : List (FP × FP) → List (FP × FP) → Option M3)
    (src : List (FP × FP)) (swapLatlon : Bool) (cands : List GeoCand)
    (t : Tested) (ht : t ∈ buildTested findH src swapLatlon cands)
    (hfin : t.rmse.isFinite = true) : t.hom.isSome = true := by
  have hr := mem_buildTested findH src swapLatlon cands t ht
  cases hh : t.hom with
  | none =>
      rw [hh] at hr
      simp only [recordRmse] at hr
      rw [hr] at hfin
      simp [FP.isFinite] at hfin
  | some H => rfl

/-- C1 (amended): in the manual path, provided no candidate's RMSE is
NaN, among all tested (label, destination) CRS candidates the one with
the strictly lowest finite RMSE is selected; ties go to the
first-encountered candidate because the RMSE sort is stable; if no
candidate has a finite RMSE the operation fails with an error.  (The
proviso is needed: the counterexample below shows a reachable NaN RMSE
derailing the sort, so the original unconditional claim is false.) -/
theorem georef_candidate_selection
    (findH : List (FP × FP) → List (FP × FP) → Option M3)
    (src : List (FP × FP)) (swapLatlon : Bool) (cands : List GeoCand)
    (hne : cands ≠ [])
    (hnan : ∀ t ∈ buildTested findH src swapLatlon cands, t.rmse ≠ FP.nan) :
    ((∃ t ∈ buildTested findH src swapLatlon cands, t.rmse.isFinite = true) →
      ∃ b, selectTransform (buildTested findH src swapLatlon cands) = Except.ok b ∧
        b ∈ buildTested findH src swapLatlon cands ∧ b.rmse.isFinite = true ∧
        (∀ u ∈ buildTested findH src swapLatlon cands, FP.le b.rmse u.rmse = true) ∧
        (buildTested findH src swapLatlon cands).find?
          (fun u => FP.le u.rmse b.rmse) = some b) ∧
    ((∀ t ∈ buildTested findH src swapLatlon cands, t.rmse.isFinite = false) →
      selectTransform (buildTested findH src swapLatlon cands) =
        Except.error "Homography failed for all candidates. Check GCPs.") := by
  have hne2 : buildTested findH src swapLatlon cands ≠ [] := by
    simp only [buildTested, ne_eq, List.map_eq_nil_iff]
    exact hne
  obtain ⟨b, rest, hsort⟩ :
      ∃ b rest, pySort (buildTested findH src swapLatlon cands) = b :: rest := by
    cases hs : pySort (buildTested findH src swapLatlon cands) with
    | nil => exact absurd ((pySort_eq_nil_iff _).mp hs) hne2
    | cons x y => exact ⟨x, y, rfl⟩
  obtain ⟨hb_mem, hb_min, hb_find⟩ := pySort_head_spec _ hnan b rest hsort
  constructor
  · rintro ⟨t, ht_mem, ht_fin⟩
    have hb_le : FP.le b.rmse t.rmse = true := hb_min t ht_mem
    have hb_ne_nan : b.rmse ≠ FP.nan := hnan b hb_mem
    have hb_ne_ninf : b.rmse ≠ FP.negInf :=
      buildTested_rmse_ne_negInf findH src swapLatlon cands b hb_mem
    have hb_fin : b.rmse.isFinite = true := by
      cases hbr : b.rmse with
      | num q => rfl
      | inf =>
          cases htr : t.rmse with
          | num q => rw [hbr, htr] at hb_le; simp [FP.le] at hb_le
          | inf => rw [htr] at ht_fin; simp [FP.isFinite] at ht_fin
          | negInf => rw [htr] at ht_fin; simp [FP.isFinite] at ht_fin
          | nan => rw [htr] at ht_fin; simp [FP.isFinite] at ht_fin
      | negInf => exact absurd hbr hb_ne_ninf
      | nan => exact absurd hbr hb_ne_nan
    have hb_some : b.hom.isSome = true :=
      buildTested_hom_isSome findH src swapLatlon cands b hb_mem hb_fin
    refine ⟨b, ?_, hb_mem, hb_fin, hb_min, hb_find⟩
    unfold selectTransform
    rw [hsort]
    simp [hb_fin, hb_some]
  · intro hall
    have hb_fin : b.rmse.isFinite = false := hall b hb_mem
    unfold selectTransform
    rw [hsort]
    simp [hb_fin]

/-- Witness for C1 at a concrete input: a single candidate whose fit
fails, so every RMSE is infinite and the selection raises. -/
theorem georef_candidate_selection_witness :
    selectTransform (buildTested (fun _ _ => none) [] false
        [⟨"4326", [FP.num 0], [FP.num 0]⟩]) =
      Except.error "Homography failed for all candidates. Check GCPs." := by
  refine (georef_candidate_selection (fun _ _ => none) [] false
      [⟨"4326", [FP.num 0], [FP.num 0]⟩] (by simp) ?_).2 ?_
  · intro t ht
    simp only [buildTested, List.map_cons, List.map_nil, List.mem_singleton] at ht
    subst ht
    simp [recordRmse]
  · intro t ht
    simp only [buildTested, List.map_cons, List.map_nil, List.mem_singleton] at ht
    subst ht
    rfl

namespace FP

theorem add_num (a b : ℚ) : num a + num b = num (a + b) := rfl

theorem mul_num (a b : ℚ) : num a * num b = num (a * b) := rfl

theorem sub_num (a b : ℚ) : num a - num b = num (a - b) := by
  simp [sub_def, sub, neg, add, sub_eq_add_neg]

theorem div_num (a b : ℚ) (h : b ≠ 0) : num a / num b = num (a / b) := by
  simp [div_def, div, h]

theorem cos_num (a : ℚ) : cos (num a) = num (cosQ a) := rfl

theorem deg2rad_num (a : ℚ) : deg2rad (num a) = num (a * (piRat / 180)) := rfl

theorem sqrt_num_of_nonneg (a : ℚ) (h : 0 ≤ a) : sqrt (num a) = num (ratSqrt a) := by
  simp [sqrt, not_lt.mpr h]

theorem isFinite_num (a : ℚ) : (num a).isFinite = true := rfl

end FP

theorem sum_map_num {α : Type} (g : α → ℚ) (l : List α) :
    (l.map (fun x => FP.num (g x))).sum = FP.num ((l.map g).sum) := by
  induction l with
  | nil => rfl
  | cons x xs ih => simp [List.sum_cons, ih, FP.add_num]

theorem sum_zipWith_num {α β : Type} (g : α → β → ℚ) (l : List α) (l2 : List β) :
    (List.zipWith (fun a b => FP.num (g a b)) l l2).sum
      = FP.num ((List.zipWith g l l2).sum) := by
  induction l generalizing l2 with
  | nil => rfl
  | cons a t ih =>
      cases l2 with
      | nil => rfl
      | cons b t2 => simp [List.zipWith_cons_cons, List.sum_cons, ih, FP.add_num]

theorem zipWith_sum_nonneg {α β : Type} (g : α → β → ℚ) (hg : ∀ a b, 0 ≤ g a b)
    (l : List α) (l2 : List β) : 0 ≤ (List.zipWith g l l2).sum := by
  induction l generalizing l2 with
  | nil => simp
  | cons a t ih =>
      cases l2 with
      | nil => simp
      | cons b t2 =>
          simp only [List.zipWith_cons_cons, List.sum_cons]
          have h1 := hg a b
          have h2 := ih t2
          linarith

theorem mean_map_num {α : Type} (g : α → ℚ) (l : List α) (hl : l ≠ []) :
    FP.mean (l.map (fun x => FP.num (g x)))
      = FP.num ((l.map g).sum / (l.length : ℚ)) := by
  have hlen : (l.length : ℚ) ≠ 0 := by
    simp [List.length_eq_zero]
    intro h
    exact hl h
  simp only [FP.mean, sum_map_num, List.length_map]
  exact FP.div_num _ _ hlen

theorem mean_zipWith_num {α β : Type} (g : α → β → ℚ) (l : List α) (l2 : List β)
    (hl : l ≠ []) (hl2 : l2 ≠ []) :
    FP.mean (List.zipWith (fun a b => FP.num (g a b)) l l2)
      = FP.num ((List.zipWith g l l2).sum
          / ((List.zipWith g l l2).length : ℚ)) := by
  have hlen : ((List.zipWith g l l2).length : ℚ) ≠ 0 := by
    simp only [List.length_zipWith, ne_eq, Nat.cast_eq_zero]
    cases l with
    | nil => exact absurd rfl hl
    | cons a t =>
        cases l2 with
        | nil => exact absurd rfl hl2
        | cons b t2 => simp
  have hlen2 : (List.zipWith (fun a b => FP.num (g a b)) l l2).length
      = (List.zipWith g l l2).length := by
    simp [List.length_zipWith]
  simp only [FP.mean, sum_zipWith_num, hlen2]
  exact FP.div_num _ _ hlen

/-- `score_fit` on a finite matrix and finite points with nonvanishing
homogeneous denominators produces a finite RMSE. -/
theorem score_fit_finite
    (a00 a01 a02 a10 a11 a12 a20 a21 a22 : ℚ)
    (src dst : List (ℚ × ℚ)) (hs : src ≠ []) (hd : dst ≠ [])
    (hden : ∀ p ∈ src, a20 * p.1 + a21 * p.2 + a22 ≠ 0) :
    (score_fit ⟨FP.num a00, FP.num a01, FP.num a02, FP.num a10, FP.num a11,
        FP.num a12, FP.num a20, FP.num a21, FP.num a22⟩
      (src.map (fun p => (FP.num p.1, FP.num p.2)))
      (dst.map (fun p => (FP.num p.1, FP.num p.2)))).isFinite = true := by
  have hpred : (src.map (fun p : ℚ × ℚ => (FP.num p.1, FP.num p.2))).map
      (fun p =>
        ((FP.num a00 * p.1 + FP.num a01 * p.2 + FP.num a02) /
            (FP.num a20 * p.1 + FP.num a21 * p.2 + FP.num a22),
         (FP.num a10 * p.1 + FP.num a11 * p.2 + FP.num a12) /
            (FP.num a20 * p.1 + FP.num a21 * p.2 + FP.num a22)))
      = src.map (fun p =>
        (FP.num ((a00 * p.1 + a01 * p.2 + a02) / (a20 * p.1 + a21 * p.2 + a22)),
         FP.num ((a10 * p.1 + a11 * p.2 + a12) / (a20 * p.1 + a21 * p.2 + a22)))) := by
    rw [List.map_map]
    apply List.map_congr_left
    intro p hp
    simp only [Function.comp_apply, FP.mul_num, FP.add_num]
    rw [FP.div_num _ _ (hden p hp), FP.div_num _ _ (hden p hp)]
  have hlat : FP.mean (List.map Prod.snd
        (dst.map (fun p : ℚ × ℚ => (FP.num p.1, FP.num p.2))))
      = FP.num ((dst.map Prod.snd).sum / (dst.length : ℚ)) := by
    rw [List.map_map]
    exact mean_map_num Prod.snd dst hd
  simp only [score_fit, hpred, hlat]
  simp only [List.zipWith_map, List.map_zipWith, FP.deg2rad_num, FP.cos_num,
    FP.sub_num, FP.mul_num, FP.add_num]
  rw [mean_zipWith_num _ _ _ hs hd]
  rw [FP.sqrt_num_of_nonneg]
  · rfl
  · apply div_nonneg
    · apply zipWith_sum_nonneg
      intro a b
      exact add_nonneg (mul_self_nonneg _) (mul_self_nonneg _)
    · positivity

/-- C5 counterexample: `georef.main` only maps a missing fit result to
an infinite RMSE; a returned matrix containing NaN flows into
`score_fit` and the recorded RMSE is NaN, not `+inf`, contradicting the
claim that a non-finite matrix always records `+inf`. -/
theorem recordRmse_nonfinite_matrix_counterexample :
    recordRmse (some ⟨FP.nan, FP.num 0, FP.num 0, FP.num 0, FP.num 1, FP.num 0,
        FP.num 0, FP.num 0, FP.num 1⟩)
      [(FP.num 1, FP.num 1)] [(FP.num 0, FP.num 0)] = FP.nan ∧
    FP.nan ≠ FP.inf := by
  constructor
  · norm_num [recordRmse, score_fit, FP.mean, FP.mul_def, FP.add_def, FP.sub_def,
      FP.div_def, FP.mul, FP.add, FP.sub, FP.neg, FP.div, FP.sqrt, FP.cos,
      FP.deg2rad, List.sum_cons, List.sum_nil]
  · simp

/-- C5 (amended): the recorded RMSE is `+inf` when the fit returns no
matrix; when the fit returns a matrix the recorded RMSE is the
`score_fit` value computed from that matrix as-is, with no finiteness
check — finite whenever the matrix entries and the points are finite
and no homogeneous denominator vanishes, but possibly NaN rather than
`+inf` when the matrix has non-finite entries. -/
theorem recordRmse_amended_spec
    (a00 a01 a02 a10 a11 a12 a20 a21 a22 : ℚ)
    (src dst : List (ℚ × ℚ)) (hs : src ≠ []) (hd : dst ≠ [])
    (hden : ∀ p ∈ src, a20 * p.1 + a21 * p.2 + a22 ≠ 0) :
    (∀ s2 d2 : List (FP × FP), recordRmse none s2 d2 = FP.inf) ∧
    (∀ (H : M3) (s2 d2 : List (FP × FP)),
      recordRmse (some H) s2 d2 = score_fit H s2 d2) ∧
    (recordRmse (some ⟨FP.num a00, FP.num a01, FP.num a02, FP.num a10, FP.num a11,
        FP.num a12, FP.num a20, FP.num a21, FP.num a22⟩)
      (src.map (fun p => (FP.num p.1, FP.num p.2)))
      (dst.map (fun p => (FP.num p.1, FP.num p.2)))).isFinite = true ∧
    (∃ (H : M3) (s2 d2 : List (FP × FP)), recordRmse (some H) s2 d2 = FP.nan) := by
  refine ⟨fun _ _ => rfl, fun _ _ _ => rfl, ?_, ?_⟩
  · exact score_fit_finite a00 a01 a02 a10 a11 a12 a20 a21 a22 src dst hs hd hden
  · refine ⟨⟨FP.nan, FP.num 0, FP.num 0, FP.num 0, FP.num 1, FP.num 0,
      FP.num 0, FP.num 0, FP.num 1⟩, [(FP.num 1, FP.num 1)],
      [(FP.num 0, FP.num 0)], ?_⟩
    norm_num [recordRmse, score_fit, FP.mean, FP.mul_def, FP.add_def, FP.sub_def,
      FP.div_def, FP.mul, FP.add, FP.sub, FP.neg, FP.div, FP.sqrt, FP.cos,
      FP.deg2rad, List.sum_cons, List.sum_nil]

/-- Witness for the amended C5 at a concrete input (identity matrix, one
correspondence). -/
theorem recordRmse_amended_spec_witness :
    (∀ s2 d2 : List (FP × FP), recordRmse none s2 d2 = FP.inf) ∧
    (∀ (H : M3) (s2 d2 : List (FP × FP)),
      recordRmse (some H) s2 d2 = score_fit H s2 d2) ∧
    (recordRmse (some ⟨FP.num 1, FP.num 0, FP.num 0, FP.num 0, FP.num 1, FP.num 0,
        FP.num 0, FP.num 0, FP.num 1⟩)
      ([((0:ℚ), (0:ℚ))].map (fun p => (FP.num p.1, FP.num p.2)))
      ([((0:ℚ), (0:ℚ))].map (fun p => (FP.num p.1, FP.num p.2)))).isFinite = true ∧
    (∃ (H : M3) (s2 d2 : List (FP × FP)), recordRmse (some H) s2 d2 = FP.nan) :=
  recordRmse_amended_spec 1 0 0 0 1 0 0 0 1 [(0, 0)] [(0, 0)]
    (by simp) (by simp) (by intro p hp; norm_num)

/-- The non-finite fitted matrix of the C1 counterexample. -/
def cexNanH : M3 :=
  ⟨FP.nan, FP.num 0, FP.num 0, FP.num 0, FP.num 1, FP.num 0,
   FP.num 0, FP.num 0, FP.num 1⟩

/-- The well-behaved fitted matrix of the C1 counterexample. -/
def cexIdH : M3 :=
  ⟨FP.num 1, FP.num 0, FP.num 0, FP.num 0, FP.num 1, FP.num 0,
   FP.num 0, FP.num 0, FP.num 1⟩

/-- Fit oracle of the C1 counterexample: the first candidate's
destination set gets the matrix with a NaN entry, the second a
well-behaved one. -/
def cexFindH : List (FP × FP) → List (FP × FP) → Option M3 :=
  fun _ dst =>
    if dst = [(FP.num 0, FP.num 0)] then some cexNanH else some cexIdH

/-- Source points of the C1 counterexample. -/
def cexSrc : List (FP × FP) := [(FP.num 1, FP.num 1)]

/-- The two CRS candidates of the C1 counterexample. -/
def cexCands : List GeoCand :=
  [⟨"4326", [FP.num 0], [FP.num 0]⟩, ⟨"3857->4326", [FP.num 1], [FP.num 0]⟩]

/-- C1 counterexample: a NaN-RMSE candidate (its fitted matrix has a
NaN entry, so `score_fit` records NaN) encountered first stays at the
head of the comparison sort — every `<` against NaN is false, so the
run scan keeps it in front — and the selection raises even though the
second candidate has a finite RMSE.  The candidate with the strictly
lowest finite RMSE is therefore not selected. -/
theorem georef_candidate_selection_counterexample :
    (∃ t ∈ buildTested cexFindH cexSrc false cexCands, t.rmse.isFinite = true) ∧
    selectTransform (buildTested cexFindH cexSrc false cexCands)
      = Except.error "Homography failed for all candidates. Check GCPs." := by
  have h1 : score_fit cexNanH cexSrc [(FP.num 0, FP.num 0)] = FP.nan := by
    norm_num [cexNanH, cexSrc, score_fit, FP.mean, FP.mul_def, FP.add_def,
      FP.sub_def, FP.div_def, FP.mul, FP.add, FP.sub, FP.neg, FP.div, FP.sqrt,
      FP.cos, FP.deg2rad, List.sum_cons, List.sum_nil]
  have h2 : (score_fit cexIdH cexSrc [(FP.num 1, FP.num 0)]).isFinite = true := by
    have hsrc : cexSrc
        = [((1:ℚ), (1:ℚ))].map (fun p => (FP.num p.1, FP.num p.2)) := rfl
    have hdst : [((FP.num 1 : FP), FP.num 0)]
        = [((1:ℚ), (0:ℚ))].map (fun p => (FP.num p.1, FP.num p.2)) := rfl
    rw [hsrc, hdst, show cexIdH = ⟨FP.num 1, FP.num 0, FP.num 0, FP.num 0,
      FP.num 1, FP.num 0, FP.num 0, FP.num 0, FP.num 1⟩ from rfl]
    exact score_fit_finite 1 0 0 0 1 0 0 0 1 [(1, 1)] [(1, 0)] (by simp) (by simp)
      (by intro p hp; norm_num)
  have hbt : buildTested cexFindH cexSrc false cexCands
      = [⟨score_fit cexNanH cexSrc [(FP.num 0, FP.num 0)], some cexNanH, "4326",
          [(FP.num 0, FP.num 0)]⟩,
         ⟨score_fit cexIdH cexSrc [(FP.num 1, FP.num 0)], some cexIdH,
          "3857->4326", [(FP.num 1, FP.num 0)]⟩] := by
    norm_num [buildTested, cexFindH, cexCands, recordRmse]
  rw [hbt, h1]
  constructor
  · exact ⟨⟨score_fit cexIdH cexSrc [(FP.num 1, FP.num 0)], some cexIdH,
      "3857->4326", [(FP.num 1, FP.num 0)]⟩, by simp, h2⟩
  · simp [selectTransform, pySort, FP.lt_nan_right, countRunAsc, FP.isFinite]

theorem mean_perm_inv {α : Type} (f : α → FP) (l l2 : List α) (h : l.Perm l2) :
    FP.mean (l.map f) = FP.mean (l2.map f) := by
  unfold FP.mean
  rw [(h.map f).sum_eq, (h.map f).length_eq]

/-- C9: `score_fit` is invariant under permutation of the correspondence
list: permuting source and destination points together leaves the RMSE
unchanged (the residuals, the mean destination latitude and the root
mean square are all permutation-invariant). -/
theorem score_fit_perm_invariant (H : M3)
    (l l2 : List ((FP × FP) × (FP × FP))) (h : l.Perm l2) :
    score_fit H (l.map Prod.fst) (l.map Prod.snd)
      = score_fit H (l2.map Prod.fst) (l2.map Prod.snd) := by
  have hlat : FP.mean (List.map (Prod.snd ∘ Prod.snd) l)
      = FP.mean (List.map (Prod.snd ∘ Prod.snd) l2) :=
    mean_perm_inv (Prod.snd ∘ Prod.snd) l l2 h
  simp only [score_fit, List.map_map, List.zipWith_map, List.zipWith_same]
  rw [hlat]
  exact congrArg FP.sqrt (mean_perm_inv _ l l2 h)

/-- Witness for C9 at a concrete input: swapping two correspondences
leaves the RMSE unchanged. -/
theorem score_fit_perm_invariant_witness :
    score_fit ⟨FP.num 1, FP.num 0, FP.num 0, FP.num 0, FP.num 1, FP.num 0,
        FP.num 0, FP.num 0, FP.num 1⟩
      (List.map Prod.fst [((FP.num 0, FP.num 0), (FP.num 1, FP.num 2)),
        ((FP.num 3, FP.num 4), (FP.num 5, FP.num 6))])
      (List.map Prod.snd [((FP.num 0, FP.num 0), (FP.num 1, FP.num 2)),
        ((FP.num 3, FP.num 4), (FP.num 5, FP.num 6))])
      = score_fit ⟨FP.num 1, FP.num 0, FP.num 0, FP.num 0, FP.num 1, FP.num 0,
        FP.num 0, FP.num 0, FP.num 1⟩
      (List.map Prod.fst [((FP.num 3, FP.num 4), (FP.num 5, FP.num 6)),
        ((FP.num 0, FP.num 0), (FP.num 1, FP.num 2))])
      (List.map Prod.snd [((FP.num 3, FP.num 4), (FP.num 5, FP.num 6)),
        ((FP.num 0, FP.num 0), (FP.num 1, FP.num 2))]) :=
  score_fit_perm_invariant _ _ _
    (List.Perm.swap ((FP.num 3, FP.num 4), (FP.num 5, FP.num 6))
      ((FP.num 0, FP.num 0), (FP.num 1, FP.num 2)) [])

/-- numpy `.min()` on a nonempty array (the empty case, on which numpy
raises, is given the junk value 0). -/
def listMin : List ℚ → ℚ
  | [] => 0
  | x :: xs => xs.foldl min x

/-- numpy `.max()` on a nonempty array (junk value 0 on the empty
array). -/
def listMax : List ℚ → ℚ
  | [] => 0
  | x :: xs => xs.foldl max x

/-- Embedding of `georef.normalize_pixels` (georef.py lines 115-134):
optional rescale to the image extents with an epsilon-floored
denominator, then Y-flip, then optional X-flip, then optional axis
swap, returning the column stack. -/
def normalize_pixels (px py : List ℚ) (w h : ℚ)
    (flipx swapxy normalize : Bool) : List (ℚ × ℚ) :=
  let px1 := if normalize then
      px.map (fun x =>
        (x - listMin px) * (w - 1) / max (listMax px - listMin px) (1 / 1000000))
    else px
  let py1 := if normalize then
      py.map (fun y =>
        (y - listMin py) * (h - 1) / max (listMax py - listMin py) (1 / 1000000))
    else py
  let py2 := py1.map (fun y => (h - 1) - y)
  let px2 := if flipx then px1.map (fun x => (w - 1) - x) else px1
  let pxf := if swapxy then py2 else px2
  let pyf := if swapxy then px2 else py2
  pxf.zip pyf

/-- Modelled from the spec: step (1) of the pixel-normalizer contract —
rescale the observed extents linearly into `[0, w-1] × [0, h-1]` with
each denominator floored at the epsilon `1e-6`. -/
def specRescale (pts : List (ℚ × ℚ)) (w h : ℚ) : List (ℚ × ℚ) :=
  let xmin := listMin (pts.map Prod.fst)
  let xmax := listMax (pts.map Prod.fst)
  let ymin := listMin (pts.map Prod.snd)
  let ymax := listMax (pts.map Prod.snd)
  pts.map (fun p =>
    ((p.1 - xmin) * (w - 1) / max (xmax - xmin) (1 / 1000000),
     (p.2 - ymin) * (h - 1) / max (ymax - ymin) (1 / 1000000)))

/-- Modelled from the spec: step (2), conversion to image-down
coordinates. -/
def specYDown (pts : List (ℚ × ℚ)) (h : ℚ) : List (ℚ × ℚ) :=
  pts.map (fun p => (p.1, (h - 1) - p.2))

/-- Modelled from the spec: step (3), horizontal reflection. -/
def specFlipX (pts : List (ℚ × ℚ)) (w : ℚ) : List (ℚ × ℚ) :=
  pts.map (fun p => ((w - 1) - p.1, p.2))

/-- Modelled from the spec: step (4), swap of the two axes. -/
def specSwap (pts : List (ℚ × ℚ)) : List (ℚ × ℚ) :=
  pts.map (fun p => (p.2, p.1))

/-- Modelled from the spec: the pixel-normalizer contract — exactly the
four steps in the fixed order (1) rescale, (2) Y-flip, (3) X-flip,
(4) swap. -/
def normalizePixelsSpec (pts : List (ℚ × ℚ)) (w h : ℚ)
    (flipx swapxy normalize : Bool) : List (ℚ × ℚ) :=
  let p1 := if normalize then specRescale pts w h else pts
  let p2 := specYDown p1 h
  let p3 := if flipx then specFlipX p2 w else p2
  if swapxy then specSwap p3 else p3

theorem zip_map_pair {α β γ δ : Type} (f : α → γ) (g : β → δ)
    (l1 : List α) (l2 : List β) :
    (l1.map f).zip (l2.map g) = (l1.zip l2).map (fun p => (f p.1, g p.2)) := by
  induction l1 generalizing l2 with
  | nil => simp
  | cons a t ih =>
      cases l2 with
      | nil => simp
      | cons b t2 => simp [ih]

theorem zip_map_right_pair {α β δ : Type} (g : β → δ)
    (l1 : List α) (l2 : List β) :
    l1.zip (l2.map g) = (l1.zip l2).map (fun p => (p.1, g p.2)) := by
  induction l1 generalizing l2 with
  | nil => simp
  | cons a t ih =>
      cases l2 with
      | nil => simp
      | cons b t2 => simp [ih]

theorem zip_map_left_pair {α β γ : Type} (f : α → γ)
    (l1 : List α) (l2 : List β) :
    (l1.map f).zip l2 = (l1.zip l2).map (fun p => (f p.1, p.2)) := by
  induction l1 generalizing l2 with
  | nil => simp
  | cons a t ih =>
      cases l2 with
      | nil => simp
      | cons b t2 => simp [ih]

theorem map_zip_swap {α β : Type} (l1 : List α) (l2 : List β) :
    l2.zip l1 = (l1.zip l2).map (fun p => (p.2, p.1)) := by
  induction l1 generalizing l2 with
  | nil => simp
  | cons a t ih =>
      cases l2 with
      | nil => simp
      | cons b t2 => simp [ih]

/-- C4: `normalize_pixels` is exactly the spec's four steps in the fixed
order — rescale with the 1e-6-floored denominators, then `y = (h-1)-y`,
then the optional `x = (w-1)-x`, then the optional axis swap. -/
theorem normalize_pixels_is_four_steps (px py : List ℚ) (w h : ℚ)
    (flipx swapxy normalize : Bool) (hlen : px.length = py.length) :
    normalize_pixels px py w h flipx swapxy normalize
      = normalizePixelsSpec (px.zip py) w h flipx swapxy normalize := by
  have hfst : (px.zip py).map Prod.fst = px :=
    List.map_fst_zip px py (le_of_eq hlen)
  have hsnd : (px.zip py).map Prod.snd = py :=
    List.map_snd_zip px py (ge_of_eq hlen)
  cases normalize <;> cases flipx <;> cases swapxy <;>
    (unfold normalize_pixels normalizePixelsSpec specRescale specYDown
      specFlipX specSwap) <;>
    simp only [Bool.false_eq_true, if_true, if_false, ite_true, ite_false,
      hfst, hsnd, List.map_map] <;>
    simp only [zip_map_pair, zip_map_right_pair, zip_map_left_pair,
      List.map_map] <;>
    (first
      | rfl
      | (simp [Function.comp]; done)
      | (rw [map_zip_swap px py]; simp [Function.comp]))

/-- Witness for C4 at a concrete input with every flag enabled. -/
theorem normalize_pixels_is_four_steps_witness :
    normalize_pixels [1, 2] [3, 4] 10 20 true true true
      = normalizePixelsSpec (([1, 2] : List ℚ).zip [3, 4]) 10 20 true true true :=
  normalize_pixels_is_four_steps [1, 2] [3, 4] 10 20 true true true rfl

/-- A 2D affine transform `(x, y) ↦ (a x + b y + c, d x + e y + f)`, as
in `rasterio.transform.Affine(a, b, c, d, e, f)`. -/
structure Aff where
  a : ℚ
  b : ℚ
  c : ℚ
  d : ℚ
  e : ℚ
  f : ℚ
deriving DecidableEq, Repr

/-- Application of an affine transform to a point. -/
def Aff.apply (t : Aff) (p : ℚ × ℚ) : ℚ × ℚ :=
  (t.a * p.1 + t.b * p.2 + t.c, t.d * p.1 + t.e * p.2 + t.f)

/-- Composition as in rasterio's `Affine.__mul__` (3×3 matrix product):
`(g.comp t).apply p = g.apply (t.apply p)`. -/
def Aff.comp (g t : Aff) : Aff :=
  ⟨g.a * t.a + g.b * t.d, g.a * t.b + g.b * t.e, g.a * t.c + g.b * t.f + g.c,
   g.d * t.a + g.e * t.d, g.d * t.b + g.e * t.e, g.d * t.c + g.e * t.f + g.f⟩

theorem Aff.comp_apply (g t : Aff) (p : ℚ × ℚ) :
    (Aff.comp g t).apply p = g.apply (t.apply p) := by
  obtain ⟨x, y⟩ := p
  simp only [Aff.comp, Aff.apply, Prod.mk.injEq]
  constructor <;> ring

/-- The four rotations of `pixel_variants` /
`variant_affine` (autogeoref_from_polygon.py). -/
inductive PixRot where
  | rot0 : PixRot
  | rot90 : PixRot
  | rot180 : PixRot
  | rot270 : PixRot
deriving DecidableEq, Repr

/-- The three flips of `pixel_variants` / `variant_affine`. -/
inductive PixFlip where
  | fnone : PixFlip
  | fh : PixFlip
  | fv : PixFlip
deriving DecidableEq, Repr

/-- The point maps of the rotation helpers in `pixel_variants`
(autogeoref_from_polygon.py lines 162-174). -/
def rotPoint : PixRot → ℚ → ℚ → (ℚ × ℚ) → (ℚ × ℚ)
  | .rot0, _, _, p => p
  | .rot90, w, _, p => (p.2, (w - 1) - p.1)
  | .rot180, w, h, p => ((w - 1) - p.1, (h - 1) - p.2)
  | .rot270, _, h, p => ((h - 1) - p.2, p.1)

/-- The rotated frame dimensions `(ww, hh)` returned alongside each
rotation in `pixel_variants`. -/
def rotDims : PixRot → ℚ → ℚ → (ℚ × ℚ)
  | .rot0, w, h => (w, h)
  | .rot90, w, h => (h, w)
  | .rot180, w, h => (w, h)
  | .rot270, w, h => (h, w)

/-- The flip applied in the rotated frame in `pixel_variants`
(autogeoref_from_polygon.py lines 179-183). -/
def flipPoint : PixFlip → ℚ → ℚ → (ℚ × ℚ) → (ℚ × ℚ)
  | .fnone, _, _, p => p
  | .fh, ww, _, p => ((ww - 1) - p.1, p.2)
  | .fv, _, hh, p => (p.1, (hh - 1) - p.2)

/-- The coordinate transform one variant of `pixel_variants` applies to
each pixel point: rotation first, then the flip in the rotated frame. -/
def variantPoint (r : PixRot) (fl : PixFlip) (w h : ℚ) (p : ℚ × ℚ) : ℚ × ℚ :=
  flipPoint fl (rotDims r w h).1 (rotDims r w h).2 (rotPoint r w h p)

/-- Embedding of `variant_affine` (autogeoref_from_polygon.py lines
188-219): the affine matrix mapping original pixels to variant pixels,
built as the rotation matrix pre-composed with the flip in the rotated
frame. -/
def variant_affine (r : PixRot) (fl : PixFlip) (w h : ℚ) : Aff :=
  let a : Aff :=
    match r with
    | .rot0 => ⟨1, 0, 0, 0, 1, 0⟩
    | .rot90 => ⟨0, 1, 0, -1, 0, w - 1⟩
    | .rot180 => ⟨-1, 0, w - 1, 0, -1, h - 1⟩
    | .rot270 => ⟨0, -1, h - 1, 1, 0, 0⟩
  let ww := (rotDims r w h).1
  let hh := (rotDims r w h).2
  match fl with
  | .fnone => a
  | .fh => Aff.comp ⟨-1, 0, ww - 1, 0, 1, 0⟩ a
  | .fv => Aff.comp ⟨1, 0, 0, 0, -1, hh - 1⟩ a

/-- C2: for each of the 12 rotation/flip combinations the matrix built
by `variant_affine` agrees pointwise with the coordinate transform
applied by `pixel_variants`, and consequently the final transform
`solved * pre_affine` emitted by `run_autogeoref` satisfies
`final(p) = model(variant(p))` on every original pixel point. -/
theorem variant_affine_agrees_and_composes (solved : Aff) (r : PixRot)
    (fl : PixFlip) (w h : ℚ) (p : ℚ × ℚ) :
    (variant_affine r fl w h).apply p = variantPoint r fl w h p ∧
    (Aff.comp solved (variant_affine r fl w h)).apply p
      = solved.apply (variantPoint r fl w h p) := by
  have hagree : (variant_affine r fl w h).apply p = variantPoint r fl w h p := by
    obtain ⟨x, y⟩ := p
    cases r <;> cases fl <;>
      (simp only [variant_affine, variantPoint, rotPoint, rotDims, flipPoint,
        Aff.comp, Aff.apply, Prod.mk.injEq]) <;>
      constructor <;> ring
  exact ⟨hagree, by rw [Aff.comp_apply, hagree]⟩

/-- A 2×2 rational matrix (row-major fields). -/
structure M2 where
  a : ℚ
  b : ℚ
  c : ℚ
  d : ℚ
deriving DecidableEq, Repr

/-- Determinant of a 2×2 matrix (`numpy.linalg.det`). -/
def M2.det (m : M2) : ℚ := m.a * m.d - m.b * m.c

/-- Transpose. -/
def M2.transpose (m : M2) : M2 := ⟨m.a, m.c, m.b, m.d⟩

/-- Matrix product. -/
def M2.mul (m n : M2) : M2 :=
  ⟨m.a * n.a + m.b * n.c, m.a * n.b + m.b * n.d,
   m.c * n.a + m.d * n.c, m.c * n.b + m.d * n.d⟩

/-- Matrix-vector product. -/
def M2.mulVec (m : M2) (v : ℚ × ℚ) : ℚ × ℚ :=
  (m.a * v.1 + m.b * v.2, m.c * v.1 + m.d * v.2)

/-- `Vt[-1,:] *= -1`: negate the last row of a 2×2 matrix. -/
def M2.negRow1 (m : M2) : M2 := ⟨m.a, m.b, -m.c, -m.d⟩

theorem M2.det_mul (m n : M2) : (m.mul n).det = m.det * n.det := by
  simp only [M2.mul, M2.det]
  ring

theorem M2.det_transpose (m : M2) : m.transpose.det = m.det := by
  simp only [M2.transpose, M2.det]
  ring

theorem M2.det_negRow1 (m : M2) : m.negRow1.det = -m.det := by
  simp only [M2.negRow1, M2.det]
  ring

/-- Per-axis mean of a point list (`.mean(axis=0)`). -/
def vmean (l : List (ℚ × ℚ)) : ℚ × ℚ :=
  ((l.map Prod.fst).sum / (l.length : ℚ), (l.map Prod.snd).sum / (l.length : ℚ))

/-- Centering on the centroid: `X = src - src_mean`. -/
def centered (l : List (ℚ × ℚ)) : List (ℚ × ℚ) :=
  l.map (fun p => (p.1 - (vmean l).1, p.2 - (vmean l).2))

/-- `(X**2).sum()`: sum of the squares of all coordinates. -/
def sqNorm (l : List (ℚ × ℚ)) : ℚ := (l.map (fun p => p.1 ^ 2 + p.2 ^ 2)).sum

/-- The centered root-sum-of-squares norm `sqrt((X**2).sum())` of a
point list (in the `ratSqrt` square-root model). -/
def normOf (l : List (ℚ × ℚ)) : ℚ := ratSqrt (sqNorm (centered l))

/-- The cross-covariance matrix `H = Xn.T @ Yn` of the normalised
centered point clouds (autogeoref_from_polygon.py lines 114-116). -/
def crossCov (src dst : List (ℚ × ℚ)) : M2 :=
  let Xn := (centered src).map (fun p => (p.1 / normOf src, p.2 / normOf src))
  let Yn := (centered dst).map (fun p => (p.1 / normOf dst, p.2 / normOf dst))
  let Z := Xn.zip Yn
  ⟨(Z.map (fun q => q.1.1 * q.2.1)).sum, (Z.map (fun q => q.1.1 * q.2.2)).sum,
   (Z.map (fun q => q.1.2 * q.2.1)).sum, (Z.map (fun q => q.1.2 * q.2.2)).sum⟩

/-- The rotation computed inside `kabsch_similarity`
(autogeoref_from_polygon.py lines 117-121): `R = Vt.T @ U.T` from the
SVD oracle, with the last row of `Vt` negated and `R` recomputed when
reflections are disallowed and `det R < 0`. -/
def kabschR (svd : M2 → M2 × (ℚ × ℚ) × M2) (src dst : List (ℚ × ℚ))
    (allow_reflection : Bool) : M2 :=
  let usv := svd (crossCov src dst)
  let R := usv.2.2.transpose.mul usv.1.transpose
  if ¬ allow_reflection ∧ R.det < 0
    then (M2.negRow1 usv.2.2).transpose.mul usv.1.transpose else R

/-- Embedding of `kabsch_similarity` (autogeoref_from_polygon.py lines
104-124), with `numpy.linalg.svd` as an oracle parameter: raise on a
zero-norm centered cloud, compute the rotation (see `kabschR`), and
return scale `normY/normX` and translation
`dst_mean - s*(R @ src_mean)`. -/
def kabsch_similarity (svd : M2 → M2 × (ℚ × ℚ) × M2) (allow_reflection : Bool)
    (src dst : List (ℚ × ℚ)) : Except String (ℚ × M2 × (ℚ × ℚ)) :=
  if normOf src = 0 ∨ normOf dst = 0 then Except.error "Degenerate point sets"
  else
    let R2 := kabschR svd src dst allow_reflection
    let s := normOf dst / normOf src
    Except.ok (s, R2,
      ((vmean dst).1 - s * (R2.mulVec (vmean src)).1,
       (vmean dst).2 - s * (R2.mulVec (vmean src)).2))

theorem kabschR_det_one (svd : M2 → M2 × (ℚ × ℚ) × M2)
    (src dst : List (ℚ × ℚ))
    (hU : (svd (crossCov src dst)).1.det = 1 ∨ (svd (crossCov src dst)).1.det = -1)
    (hV : (svd (crossCov src dst)).2.2.det = 1 ∨
      (svd (crossCov src dst)).2.2.det = -1) :
    (kabschR svd src dst false).det = 1 := by
  by_cases hneg : ((svd (crossCov src dst)).2.2.transpose.mul
      (svd (crossCov src dst)).1.transpose).det < 0
  · have heq : kabschR svd src dst false
        = ((svd (crossCov src dst)).2.2.negRow1).transpose.mul
            (svd (crossCov src dst)).1.transpose := by
      simp only [kabschR]
      rw [if_pos]
      exact ⟨by decide, hneg⟩
    rw [heq, M2.det_mul, M2.det_transpose, M2.det_transpose, M2.det_negRow1]
    rw [M2.det_mul, M2.det_transpose, M2.det_transpose] at hneg
    rcases hV with hv | hv <;> rcases hU with hu | hu <;>
      rw [hv, hu] at hneg ⊢ <;> norm_num at hneg ⊢
  · have heq : kabschR svd src dst false
        = (svd (crossCov src dst)).2.2.transpose.mul
            (svd (crossCov src dst)).1.transpose := by
      simp only [kabschR]
      rw [if_neg]
      intro hand
      exact hneg hand.2
    rw [heq, M2.det_mul, M2.det_transpose, M2.det_transpose]
    rw [M2.det_mul, M2.det_transpose, M2.det_transpose] at hneg
    rcases hV with hv | hv <;> rcases hU with hu | hu <;>
      rw [hv, hu] at hneg ⊢ <;> norm_num at hneg ⊢

/-- C3: on non-degenerate inputs and with reflections disallowed,
`kabsch_similarity` returns a rotation of determinant `+1` (given the
SVD library contract that `U` and `Vt` have determinant `±1`), scale
equal to the ratio of the destination to source centered norms, and
translation `dst_mean - s*(R @ src_mean)`; on a zero-norm centered
cloud it raises instead of returning a model. -/
theorem kabsch_similarity_spec (svd : M2 → M2 × (ℚ × ℚ) × M2)
    (src dst : List (ℚ × ℚ))
    (hU : (svd (crossCov src dst)).1.det = 1 ∨ (svd (crossCov src dst)).1.det = -1)
    (hV : (svd (crossCov src dst)).2.2.det = 1 ∨
      (svd (crossCov src dst)).2.2.det = -1) :
    ((normOf src ≠ 0 ∧ normOf dst ≠ 0) →
      ∃ R : M2, kabsch_similarity svd false src dst
          = Except.ok (normOf dst / normOf src, R,
              ((vmean dst).1 - (normOf dst / normOf src) * (R.mulVec (vmean src)).1,
               (vmean dst).2 - (normOf dst / normOf src) * (R.mulVec (vmean src)).2))
          ∧ R.det = 1) ∧
    ((normOf src = 0 ∨ normOf dst = 0) →
      kabsch_similarity svd false src dst = Except.error "Degenerate point sets") := by
  constructor
  · rintro ⟨hx, hy⟩
    have hc : ¬ (normOf src = 0 ∨ normOf dst = 0) := by
      rintro (h | h)
      · exact hx h
      · exact hy h
    refine ⟨kabschR svd src dst false, ?_, kabschR_det_one svd src dst hU hV⟩
    unfold kabsch_similarity
    rw [if_neg hc]
  · intro hdeg
    unfold kabsch_similarity
    rw [if_pos hdeg]

/-- Witness for C3 at a concrete input: collinear segments scaled by 2,
with an identity SVD oracle. -/
theorem kabsch_similarity_spec_witness :
    ∃ R : M2,
      kabsch_similarity (fun _ => (⟨1, 0, 0, 1⟩, ((0:ℚ), (0:ℚ)), ⟨1, 0, 0, 1⟩))
          false [((0:ℚ), (0:ℚ)), ((2:ℚ), (0:ℚ))] [((0:ℚ), (0:ℚ)), ((4:ℚ), (0:ℚ))]
        = Except.ok
            (normOf [((0:ℚ), (0:ℚ)), ((4:ℚ), (0:ℚ))]
               / normOf [((0:ℚ), (0:ℚ)), ((2:ℚ), (0:ℚ))], R,
             ((vmean [((0:ℚ), (0:ℚ)), ((4:ℚ), (0:ℚ))]).1
                - (normOf [((0:ℚ), (0:ℚ)), ((4:ℚ), (0:ℚ))]
                    / normOf [((0:ℚ), (0:ℚ)), ((2:ℚ), (0:ℚ))])
                  * (R.mulVec (vmean [((0:ℚ), (0:ℚ)), ((2:ℚ), (0:ℚ))])).1,
              (vmean [((0:ℚ), (0:ℚ)), ((4:ℚ), (0:ℚ))]).2
                - (normOf [((0:ℚ), (0:ℚ)), ((4:ℚ), (0:ℚ))]
                    / normOf [((0:ℚ), (0:ℚ)), ((2:ℚ), (0:ℚ))])
                  * (R.mulVec (vmean [((0:ℚ), (0:ℚ)), ((2:ℚ), (0:ℚ))])).2))
          ∧ R.det = 1 :=
  (kabsch_similarity_spec
      (fun _ => (⟨1, 0, 0, 1⟩, ((0:ℚ), (0:ℚ)), ⟨1, 0, 0, 1⟩))
      [((0:ℚ), (0:ℚ)), ((2:ℚ), (0:ℚ))] [((0:ℚ), (0:ℚ)), ((4:ℚ), (0:ℚ))]
      (Or.inl (by norm_num [M2.det])) (Or.inl (by norm_num [M2.det]))).1
    ⟨by norm_num [normOf, sqNorm, centered, vmean, ratSqrt, natSqrt, natSqrtAux],
     by norm_num [normOf, sqNorm, centered, vmean, ratSqrt, natSqrt, natSqrtAux]⟩

/-- Embedding of `transform_to_affine` (autogeoref_from_polygon.py lines
127-135): `Affine(s*R00, s*R01, t0, s*R10, s*R11, t1)`. -/
def transform_to_affine (s : ℚ) (R : M2) (t : ℚ × ℚ) : Aff :=
  ⟨s * R.a, s * R.b, t.1, s * R.c, s * R.d, t.2⟩

/-- One fitted candidate of the alignment search loop of
`run_autogeoref`: its RMSE, the solved model and the pre-variant
transform recorded with it. -/
structure FitCand where
  rmse : ℚ
  solved : Aff
  preAff : Aff
deriving DecidableEq, Repr

/-- One similarity-model trial of the search loop
(autogeoref_from_polygon.py lines 249-262): run the Kabsch fit — whose
degenerate-input exception is the per-trial failure caught by the
`try/except` — then score the RMSE of the prediction against the
candidate and record the fit with its pre-variant affine. -/
def simTrial (svd : M2 → M2 × (ℚ × ℚ) × M2) (allow_ref : Bool)
    (src_var candidate : List (ℚ × ℚ)) (pre : Aff) : Except String FitCand :=
  match kabsch_similarity svd allow_ref src_var candidate with
  | .error e => .error e
  | .ok (s, R, t) =>
      let pred := src_var.map
        (fun p => (s * (R.mulVec p).1 + t.1, s * (R.mulVec p).2 + t.2))
      let errs := (pred.zip candidate).map
        (fun q => ratSqrt ((q.1.1 - q.2.1) ^ 2 + (q.1.2 - q.2.2) ^ 2))
      let rmse := ratSqrt ((errs.map (fun e => e ^ 2)).sum / (errs.length : ℚ))
      .ok ⟨rmse, transform_to_affine s R t, pre⟩

/-- Embedding of the candidate fold of `run_autogeoref`
(autogeoref_from_polygon.py lines 243-281): each trial's outcome is
either an exception (caught and skipped, leaving the running best
untouched) or a fitted candidate, which replaces the running best
exactly when the best is unset or the new RMSE is strictly smaller. -/
def searchBest (trials : List (Except String FitCand)) : Option FitCand :=
  trials.foldl
    (fun best t =>
      match t with
      | .error _ => best
      | .ok c =>
          match best with
          | none => some c
          | some b => if c.rmse < b.rmse then some c else best)
    none

/-- The errors the tail of `run_autogeoref` can produce in the model;
`noTransformFound` is the error the spec promises and never occurs in
the code. -/
inductive PyErr where
  | typeErrorNoneNotSubscriptable : PyErr
  | noTransformFound : PyErr
deriving DecidableEq, Repr

/-- Embedding of the code after the search loop
(autogeoref_from_polygon.py lines 283-289): when no candidate ever
succeeded `best` is still `None` and evaluating `best['mode']` raises
`TypeError: 'NoneType' object is not subscriptable`; otherwise the
solved model is composed with its pre-variant transform. -/
def finishSearch (best : Option FitCand) : Except PyErr Aff :=
  match best with
  | none => Except.error PyErr.typeErrorNoneNotSubscriptable
  | some b => Except.ok (Aff.comp b.solved b.preAff)

/-- The alignment search and its finishing composition. -/
def run_search (trials : List (Except String FitCand)) : Except PyErr Aff :=
  finishSearch (searchBest trials)

/-- The successful fits among the trials, in encounter order. -/
def okList (trials : List (Except String FitCand)) : List FitCand :=
  trials.filterMap (fun t => match t with | .error _ => none | .ok c => some c)

/-- The strict-improvement fold on an already-started best. -/
def bestFold (b : FitCand) (l : List FitCand) : FitCand :=
  l.foldl (fun acc c => if c.rmse < acc.rmse then c else acc) b

theorem searchBest_go (trials : List (Except String FitCand)) (b : FitCand) :
    trials.foldl
      (fun best t =>
        match t with
        | .error _ => best
        | .ok c =>
            match best with
            | none => some c
            | some b => if c.rmse < b.rmse then some c else best)
      (some b) = some (bestFold b (okList trials)) := by
  induction trials generalizing b with
  | nil => rfl
  | cons t rest ih =>
      cases t with
      | error e =>
          simp only [List.foldl_cons, okList, List.filterMap_cons]
          exact ih b
      | ok c =>
          simp only [List.foldl_cons, okList, List.filterMap_cons]
          by_cases h : c.rmse < b.rmse
          · rw [if_pos h]
            simp only [okList] at ih
            rw [ih c]
            simp [bestFold, List.foldl_cons, if_pos h]
          · rw [if_neg h]
            simp only [okList] at ih
            rw [ih b]
            simp [bestFold, List.foldl_cons, if_neg h]

theorem searchBest_spec (trials : List (Except String FitCand)) :
    searchBest trials = match okList trials with
      | [] => none
      | c :: rest => some (bestFold c rest) := by
  induction trials with
  | nil => rfl
  | cons t rest ih =>
      cases t with
      | error e =>
          simp only [searchBest, List.foldl_cons, okList, List.filterMap_cons]
          simpa [searchBest, okList] using ih
      | ok c =>
          simp only [searchBest, List.foldl_cons, okList, List.filterMap_cons]
          exact searchBest_go rest c

theorem bestFold_cons (b c : FitCand) (t : List FitCand) :
    bestFold b (c :: t) = bestFold (if c.rmse < b.rmse then c else b) t := rfl

theorem bestFold_mem (b : FitCand) (l : List FitCand) :
    bestFold b l ∈ b :: l := by
  induction l generalizing b with
  | nil => simp [bestFold]
  | cons c t ih =>
      rw [bestFold_cons]
      rcases List.mem_cons.mp (ih (if c.rmse < b.rmse then c else b)) with h1 | h1
      · split_ifs at h1 with hcb <;> simp [hcb, h1]
      · simp [h1]

theorem bestFold_le (b : FitCand) (l : List FitCand) :
    ∀ x ∈ b :: l, (bestFold b l).rmse ≤ x.rmse := by
  induction l generalizing b with
  | nil =>
      intro x hx
      simp at hx
      subst hx
      simp [bestFold]
  | cons c t ih =>
      intro x hx
      rw [bestFold_cons]
      have hbb : (bestFold (if c.rmse < b.rmse then c else b) t).rmse
          ≤ (if c.rmse < b.rmse then c else b).rmse :=
        ih (if c.rmse < b.rmse then c else b) _ (by simp)
      rcases List.mem_cons.mp hx with rfl | hx2
      · refine le_trans hbb ?_
        split_ifs with hcb
        · exact le_of_lt hcb
        · exact le_refl _
      rcases List.mem_cons.mp hx2 with rfl | hx3
      · refine le_trans hbb ?_
        split_ifs with hcb
        · exact le_refl _
        · exact le_of_not_lt hcb
      · exact ih (if c.rmse < b.rmse then c else b) x (by simp [hx3])

theorem bestFold_first (b : FitCand) (l : List FitCand) :
    (b :: l).find? (fun d => decide (d.rmse ≤ (bestFold b l).rmse))
      = some (bestFold b l) := by
  induction l generalizing b with
  | nil =>
      simp only [bestFold, List.foldl_nil]
      exact List.find?_cons_of_pos _ (by simp)
  | cons c t ih =>
      rw [bestFold_cons]
      by_cases hcb : c.rmse < b.rmse
      · rw [if_pos hcb]
        have hble : (bestFold c t).rmse ≤ c.rmse := bestFold_le c t c (by simp)
        have hpb : ¬ (b.rmse ≤ (bestFold c t).rmse) := by
          intro hle
          exact absurd (lt_of_lt_of_le hcb hle) (not_lt.mpr hble)
        rw [List.find?_cons_of_neg _ (by simpa using hpb)]
        exact ih c
      · rw [if_neg hcb]
        have hbf := ih b
        by_cases hpb : b.rmse ≤ (bestFold b t).rmse
        · rw [List.find?_cons_of_pos _ (by simpa using hpb)] at hbf
          have hbeq : b = bestFold b t := Option.some.inj hbf
          rw [List.find?_cons_of_pos _ (by simpa using hpb), ← hbeq]
        · have hbc : b.rmse ≤ c.rmse := le_of_not_lt hcb
          have hpc : ¬ (c.rmse ≤ (bestFold b t).rmse) := fun hle =>
            hpb (le_trans hbc hle)
          rw [List.find?_cons_of_neg _ (by simpa using hpb)] at hbf
          rw [List.find?_cons_of_neg _ (by simpa using hpb),
            List.find?_cons_of_neg _ (by simpa using hpc)]
          exact hbf

/-- C6 (amended): a failure while fitting one correspondence (such as a
degenerate Kabsch step) eliminates only that trial — the search still
selects the first-encountered minimum-RMSE success among the remaining
trials and emits its composed transform; but when every trial fails the
search leaves `best = None` and the subsequent `best['mode']` raises the
generic None-subscript TypeError, so no transform is emitted and no
dedicated `NoTransformFound` error is reported. -/
theorem run_search_spec (trials : List (Except String FitCand)) :
    (okList trials = [] →
      run_search trials = Except.error PyErr.typeErrorNoneNotSubscriptable) ∧
    (∀ c rest, okList trials = c :: rest →
      ∃ b, searchBest trials = some b ∧
        run_search trials = Except.ok (Aff.comp b.solved b.preAff) ∧
        b ∈ okList trials ∧
        (∀ d ∈ okList trials, b.rmse ≤ d.rmse) ∧
        (okList trials).find? (fun d => decide (d.rmse ≤ b.rmse)) = some b) := by
  constructor
  · intro h
    unfold run_search
    rw [searchBest_spec, h]
    rfl
  · intro c rest h
    have hs : searchBest trials = some (bestFold c rest) := by
      rw [searchBest_spec, h]
    refine ⟨bestFold c rest, hs, ?_, ?_, ?_, ?_⟩
    · unfold run_search
      rw [hs]
      rfl
    · rw [h]
      exact bestFold_mem c rest
    · rw [h]
      exact bestFold_le c rest
    · rw [h]
      exact bestFold_first c rest

/-- C6 counterexample: with a single correspondence whose Kabsch fit is
degenerate (all source points coincide) every trial fails, and the code
raises the None-subscript TypeError — the claimed `NoTransformFound`
report never happens. -/
theorem run_search_counterexample :
    run_search [simTrial (fun _ => (⟨1, 0, 0, 1⟩, ((0:ℚ), (0:ℚ)), ⟨1, 0, 0, 1⟩))
        false [((0:ℚ), (0:ℚ)), ((0:ℚ), (0:ℚ))] [((0:ℚ), (0:ℚ)), ((1:ℚ), (0:ℚ))]
        (Aff.mk 1 0 0 0 1 0)]
      = Except.error PyErr.typeErrorNoneNotSubscriptable ∧
    PyErr.typeErrorNoneNotSubscriptable ≠ PyErr.noTransformFound := by
  constructor
  · have hdeg : kabsch_similarity
        (fun _ => (⟨1, 0, 0, 1⟩, ((0:ℚ), (0:ℚ)), ⟨1, 0, 0, 1⟩)) false
        [((0:ℚ), (0:ℚ)), ((0:ℚ), (0:ℚ))] [((0:ℚ), (0:ℚ)), ((1:ℚ), (0:ℚ))]
        = Except.error "Degenerate point sets" := by
      unfold kabsch_similarity
      rw [if_pos]
      left
      norm_num [normOf, sqNorm, centered, vmean, ratSqrt, natSqrt, natSqrtAux]
    simp only [run_search, searchBest, finishSearch, simTrial, hdeg,
      List.foldl_cons, List.foldl_nil]
  · simp

/-- Witness for the amended C6 at a concrete input: one failed trial
beside one successful trial — the failure is skipped and the success is
selected and composed. -/
theorem run_search_spec_witness :
    ∃ b, searchBest [Except.error "Degenerate point sets",
        Except.ok (FitCand.mk 1 (Aff.mk 1 0 0 0 1 0) (Aff.mk 0 1 0 1 0 0))]
        = some b ∧
      run_search [Except.error "Degenerate point sets",
        Except.ok (FitCand.mk 1 (Aff.mk 1 0 0 0 1 0) (Aff.mk 0 1 0 1 0 0))]
        = Except.ok (Aff.comp b.solved b.preAff) ∧
      b ∈ okList [Except.error "Degenerate point sets",
        Except.ok (FitCand.mk 1 (Aff.mk 1 0 0 0 1 0) (Aff.mk 0 1 0 1 0 0))] ∧
      (∀ d ∈ okList [Except.error "Degenerate point sets",
        Except.ok (FitCand.mk 1 (Aff.mk 1 0 0 0 1 0) (Aff.mk 0 1 0 1 0 0))],
        b.rmse ≤ d.rmse) ∧
      (okList [Except.error "Degenerate point sets",
        Except.ok (FitCand.mk 1 (Aff.mk 1 0 0 0 1 0) (Aff.mk 0 1 0 1 0 0))]).find?
          (fun d => decide (d.rmse ≤ b.rmse)) = some b :=
  (run_search_spec [Except.error "Degenerate point sets",
      Except.ok (FitCand.mk 1 (Aff.mk 1 0 0 0 1 0) (Aff.mk 0 1 0 1 0 0))]).2
    (FitCand.mk 1 (Aff.mk 1 0 0 0 1 0) (Aff.mk 0 1 0 1 0 0)) []
    (by simp [okList])

/-- A polygon: an exterior ring and a list of interior rings (holes). -/
structure GeoPoly where
  ext : List (ℚ × ℚ)
  holes : List (List (ℚ × ℚ))
deriving DecidableEq, Repr

/-- The directed edges of a ring with cyclic wraparound (the last vertex
connects back to `first`). -/
def edgesFrom (first : ℚ × ℚ) : List (ℚ × ℚ) → List ((ℚ × ℚ) × (ℚ × ℚ))
  | [] => []
  | [p] => [(p, first)]
  | p :: q :: rest => (p, q) :: edgesFrom first (q :: rest)

/-- Shapely ring area: half the absolute shoelace sum. -/
def ringArea (r : List (ℚ × ℚ)) : ℚ :=
  match r with
  | [] => 0
  | p :: _ =>
      |((edgesFrom p r).map (fun e => e.1.1 * e.2.2 - e.2.1 * e.1.2)).sum| / 2

/-- Embedding of `drop_or_keep_holes` (vectorize.py lines 117-133) on a
single polygon: with holes disabled keep only the exterior; with holes
enabled and a positive threshold, convert the square-kilometer
threshold to squared degrees by `(T*1e6)/(111320*110540)` and keep
exactly the interior rings of at least that area. -/
def drop_or_keep_holes (p : GeoPoly) (include_holes : Bool)
    (min_hole_area_sqkm : ℚ) : GeoPoly :=
  if include_holes then
    if min_hole_area_sqkm ≤ 0 then p
    else
      let thresh := min_hole_area_sqkm * 1000000 / (111320 * 110540)
      ⟨p.ext, p.holes.filter (fun r => thresh ≤ ringArea r)⟩
  else ⟨p.ext, []⟩

/-- C7: with `include_holes=false` the output is the exterior with zero
interior rings; with `include_holes=true` and threshold `T > 0` every
retained hole has area at least `(T*1e6)/(111320*110540)` squared
degrees and every dropped hole has smaller area; the exterior ring is
unchanged in both cases. -/
theorem drop_or_keep_holes_spec (p : GeoPoly) (T : ℚ) :
    ((drop_or_keep_holes p false T).ext = p.ext ∧
     (drop_or_keep_holes p false T).holes = []) ∧
    (0 < T →
      (drop_or_keep_holes p true T).ext = p.ext ∧
      (∀ r ∈ (drop_or_keep_holes p true T).holes,
        T * 1000000 / (111320 * 110540) ≤ ringArea r) ∧
      (∀ r ∈ p.holes, r ∉ (drop_or_keep_holes p true T).holes →
        ringArea r < T * 1000000 / (111320 * 110540))) := by
  constructor
  · exact ⟨rfl, rfl⟩
  · intro hT
    have hcond : ¬ (T ≤ 0) := not_le.mpr hT
    have heq : drop_or_keep_holes p true T
        = ⟨p.ext, p.holes.filter
            (fun r => T * 1000000 / (111320 * 110540) ≤ ringArea r)⟩ := by
      unfold drop_or_keep_holes
      rw [if_pos rfl, if_neg hcond]
    rw [heq]
    refine ⟨rfl, ?_, ?_⟩
    · intro r hr
      have := List.mem_filter.mp hr
      simpa using this.2
    · intro r hr hnot
      by_contra hge
      push_neg at hge
      exact hnot (List.mem_filter.mpr ⟨hr, by simpa using hge⟩)

/-- Witness for C7 at a concrete input: a unit-square hole is kept, a
millimeter-scale hole is dropped, with threshold 1 km². -/
theorem drop_or_keep_holes_spec_witness :
    ((drop_or_keep_holes
        ⟨[(0, 0), (10, 0), (10, 10), (0, 10)],
         [[(1, 1), (2, 1), (2, 2), (1, 2)],
          [(5, 5), (5 + 1/1000, 5), (5 + 1/1000, 5 + 1/1000), (5, 5 + 1/1000)]]⟩
        false 1).ext = [(0, 0), (10, 0), (10, 10), (0, 10)] ∧
     (drop_or_keep_holes
        ⟨[(0, 0), (10, 0), (10, 10), (0, 10)],
         [[(1, 1), (2, 1), (2, 2), (1, 2)],
          [(5, 5), (5 + 1/1000, 5), (5 + 1/1000, 5 + 1/1000), (5, 5 + 1/1000)]]⟩
        false 1).holes = []) ∧
    (drop_or_keep_holes
        ⟨[(0, 0), (10, 0), (10, 10), (0, 10)],
         [[(1, 1), (2, 1), (2, 2), (1, 2)],
          [(5, 5), (5 + 1/1000, 5), (5 + 1/1000, 5 + 1/1000), (5, 5 + 1/1000)]]⟩
        true 1).ext = [(0, 0), (10, 0), (10, 10), (0, 10)] ∧
    (∀ r ∈ (drop_or_keep_holes
        ⟨[(0, 0), (10, 0), (10, 10), (0, 10)],
         [[(1, 1), (2, 1), (2, 2), (1, 2)],
          [(5, 5), (5 + 1/1000, 5), (5 + 1/1000, 5 + 1/1000), (5, 5 + 1/1000)]]⟩
        true 1).holes,
      (1 : ℚ) * 1000000 / (111320 * 110540) ≤ ringArea r) ∧
    (∀ r ∈ [[((1:ℚ), (1:ℚ)), (2, 1), (2, 2), (1, 2)],
          [(5, 5), (5 + 1/1000, 5), (5 + 1/1000, 5 + 1/1000), (5, 5 + 1/1000)]],
      r ∉ (drop_or_keep_holes
        ⟨[(0, 0), (10, 0), (10, 10), (0, 10)],
         [[(1, 1), (2, 1), (2, 2), (1, 2)],
          [(5, 5), (5 + 1/1000, 5), (5 + 1/1000, 5 + 1/1000), (5, 5 + 1/1000)]]⟩
        true 1).holes →
      ringArea r < (1 : ℚ) * 1000000 / (111320 * 110540)) := by
  have h := drop_or_keep_holes_spec
    ⟨[(0, 0), (10, 0), (10, 10), (0, 10)],
     [[(1, 1), (2, 1), (2, 2), (1, 2)],
      [(5, 5), (5 + 1/1000, 5), (5 + 1/1000, 5 + 1/1000), (5, 5 + 1/1000)]]⟩ 1
  exact ⟨h.1, (h.2 (by norm_num)).1, (h.2 (by norm_num)).2.1, (h.2 (by norm_num)).2.2⟩

/-- Shapely polygon area: exterior ring area minus the hole areas. -/
def GeoPoly.area (p : GeoPoly) : ℚ := ringArea p.ext - (p.holes.map ringArea).sum

/-- Insertion into a descending-by-area list, before the first entry of
smaller-or-equal area (matching the stability of Python's
`sorted(..., reverse=True)`: earlier-encountered entries of equal area
stay first). -/
def descInsert (a : GeoPoly) : List GeoPoly → List GeoPoly
  | [] => [a]
  | b :: l => if b.area ≤ a.area then a :: b :: l else b :: descInsert a l

/-- Model of `sorted(polys, key=lambda p: p.area, reverse=True)`
(vectorize.py line 138). -/
def sortByAreaDesc : List GeoPoly → List GeoPoly
  | [] => []
  | a :: l => descInsert a (sortByAreaDesc l)

/-- Embedding of `keep_n_largest` (vectorize.py lines 135-139): a no-op
when `n` is `None` or nonpositive, otherwise the `n` largest polygons
by area in descending order. -/
def keep_n_largest (polys : List GeoPoly) (n : Option ℤ) : List GeoPoly :=
  match n with
  | none => polys
  | some m => if m ≤ 0 then polys else (sortByAreaDesc polys).take m.toNat

theorem mem_descInsert (x a : GeoPoly) (l : List GeoPoly) :
    x ∈ descInsert a l ↔ x = a ∨ x ∈ l := by
  induction l with
  | nil => simp [descInsert]
  | cons b t ih =>
      simp only [descInsert]
      split
      · simp [List.mem_cons]
      · simp [List.mem_cons, ih]
        tauto

theorem descInsert_pairwise (a : GeoPoly) (l : List GeoPoly)
    (hl : l.Pairwise (fun p q => q.area ≤ p.area)) :
    (descInsert a l).Pairwise (fun p q => q.area ≤ p.area) := by
  induction l with
  | nil => simp [descInsert]
  | cons b t ih =>
      rw [List.pairwise_cons] at hl
      simp only [descInsert]
      split_ifs with hba
      · rw [List.pairwise_cons]
        refine ⟨?_, List.pairwise_cons.mpr hl⟩
        intro x hx
        rcases List.mem_cons.mp hx with rfl | hx2
        · exact hba
        · exact le_trans (hl.1 x hx2) hba
      · rw [List.pairwise_cons]
        refine ⟨?_, ih hl.2⟩
        intro x hx
        rcases (mem_descInsert x a t).mp hx with rfl | hx2
        · exact le_of_lt (lt_of_not_le hba)
        · exact hl.1 x hx2

theorem sortByAreaDesc_pairwise (l : List GeoPoly) :
    (sortByAreaDesc l).Pairwise (fun p q => q.area ≤ p.area) := by
  induction l with
  | nil => simp [sortByAreaDesc]
  | cons a t ih => exact descInsert_pairwise a (sortByAreaDesc t) ih

/-- C8: `keep_n_largest` returns at most `n` polygons ordered by
non-increasing area when `n > 0`, and returns the input unchanged when
`n` is unset or nonpositive. -/
theorem keep_n_largest_spec (polys : List GeoPoly) (n : Option ℤ) :
    (∀ m : ℤ, n = some m → 0 < m →
      (keep_n_largest polys n).length ≤ m.toNat ∧
      (keep_n_largest polys n).Pairwise (fun p q => q.area ≤ p.area)) ∧
    ((n = none ∨ ∃ m : ℤ, n = some m ∧ m ≤ 0) → keep_n_largest polys n = polys) := by
  constructor
  · intro m hm hpos
    subst hm
    have hcond : ¬ (m ≤ 0) := not_le.mpr hpos
    simp only [keep_n_largest, if_neg hcond]
    constructor
    · exact List.length_take_le _ _
    · exact ((sortByAreaDesc_pairwise polys).sublist (List.take_sublist _ _))
  · rintro (rfl | ⟨m, rfl, hm⟩)
    · rfl
    · simp only [keep_n_largest, if_pos hm]

/-- Witness for C8 at a concrete input: two polygons, keep the largest
one. -/
theorem keep_n_largest_spec_witness :
    (keep_n_largest [⟨[(0, 0), (1, 0), (1, 1), (0, 1)], []⟩,
        ⟨[(0, 0), (2, 0), (2, 2), (0, 2)], []⟩] (some 1)).length ≤ (1 : ℤ).toNat ∧
    (keep_n_largest [⟨[(0, 0), (1, 0), (1, 1), (0, 1)], []⟩,
        ⟨[(0, 0), (2, 0), (2, 2), (0, 2)], []⟩] (some 1)).Pairwise
      (fun p q => q.area ≤ p.area) :=
  (keep_n_largest_spec [⟨[(0, 0), (1, 0), (1, 1), (0, 1)], []⟩,
      ⟨[(0, 0), (2, 0), (2, 2), (0, 2)], []⟩] (some 1)).1 1 rfl (by norm_num)

/-- Segment lengths of a polyline (`np.diff` followed by row norms), in
the `ratSqrt` square-root model. -/
def segLens (pts : List (ℚ × ℚ)) : List ℚ :=
  (pts.zip pts.tail).map
    (fun q => ratSqrt ((q.2.1 - q.1.1) ^ 2 + (q.2.2 - q.1.2) ^ 2))

/-- Running cumulative sums (`np.cumsum`). -/
def cumsumFrom (acc : ℚ) : List ℚ → List ℚ
  | [] => []
  | x :: xs => (acc + x) :: cumsumFrom (acc + x) xs

/-- `L = concatenate([[0], cumsum(seglens)])`. -/
def cumL (pts : List (ℚ × ℚ)) : List ℚ := 0 :: cumsumFrom 0 (segLens pts)

/-- `np.interp` over increasing sample points paired with values: clamp
below the first point and above the last, linear in between. -/
def interpPts (x : ℚ) : List (ℚ × ℚ) → ℚ
  | [] => 0
  | [(_, f0)] => f0
  | (x0, f0) :: (x1, f1) :: rest =>
      if x ≤ x0 then f0
      else if x ≤ x1 then f0 + (x - x0) * (f1 - f0) / (x1 - x0)
      else interpPts x ((x1, f1) :: rest)

/-- `np.linspace a b n`: `n` evenly spaced points from `a` to `b`. -/
def linspace (a b : ℚ) (n : ℕ) : List ℚ :=
  (List.range n).map
    (fun (i : ℕ) => if n ≤ 1 then a else a + (b - a) * (i : ℚ) / ((n : ℚ) - 1))

/-- Embedding of `resample_polyline` (autogeoref_from_polygon.py lines
90-101): when the total cumulative arc length is zero, repeat the first
row `n` times; otherwise interpolate both coordinates at `n` evenly
spaced arc-length parameters. -/
def resample_polyline (pts : List (ℚ × ℚ)) (n : ℕ) : List (ℚ × ℚ) :=
  let Ls := cumL pts
  let Lend := Ls.getLastD 0
  if Lend = 0 then (pts.take 1).flatMap (fun p => List.replicate n p)
  else
    (linspace 0 Lend n).map (fun t =>
      (interpPts t (Ls.zip (pts.map Prod.fst)),
       interpPts t (Ls.zip (pts.map Prod.snd))))

theorem cumsumFrom_const_zero (l : List ℚ) (hl : ∀ x ∈ l, x = 0) (acc : ℚ) :
    cumsumFrom acc l = List.replicate l.length acc := by
  induction l generalizing acc with
  | nil => rfl
  | cons x xs ih =>
      have hx : x = 0 := hl x (by simp)
      simp only [cumsumFrom, hx, add_zero, List.length_cons, List.replicate_succ]
      rw [ih (fun y hy => hl y (by simp [hy])) acc]

theorem getLastD_replicate (k : ℕ) (c d e : ℚ) :
    (c :: List.replicate k d).getLastD e = if k = 0 then c else d := by
  induction k generalizing c e with
  | zero => simp
  | succ m ih =>
      simp only [List.replicate_succ]
      rw [List.getLastD_cons]
      rw [ih d c]
      simp

/-- C10: on every nonempty polyline and every `n ≥ 1`,
`resample_polyline` returns exactly `n` points, and when all input
points coincide (total arc length zero) it returns the first point
repeated `n` times instead of dividing by zero. -/
theorem resample_polyline_total (pts : List (ℚ × ℚ)) (p0 : ℚ × ℚ)
    (rest : List (ℚ × ℚ)) (n : ℕ) (hpts : pts = p0 :: rest) (hn1 : 1 ≤ n) :
    (resample_polyline pts n).length = n ∧
    ((∀ q ∈ pts, q = p0) → resample_polyline pts n = List.replicate n p0) := by
  constructor
  · simp only [resample_polyline]
    split_ifs with h
    · subst hpts
      simp
    · rw [List.length_map, linspace, List.length_map]
      exact List.length_range n
  · intro hall
    have hseg : ∀ x ∈ segLens pts, x = 0 := by
      intro x hx
      simp only [segLens, List.mem_map] at hx
      obtain ⟨q, hq, rfl⟩ := hx
      have hq1 : q.1 ∈ pts := (List.of_mem_zip hq).1
      have hq2 : q.2 ∈ pts.tail := (List.of_mem_zip hq).2
      have hq2b : q.2 ∈ pts := List.mem_of_mem_tail hq2
      rw [hall q.1 hq1, hall q.2 hq2b]
      simp [ratSqrt_zero]
    have hLend : (cumL pts).getLastD 0 = 0 := by
      unfold cumL
      rw [cumsumFrom_const_zero (segLens pts) hseg 0]
      rw [getLastD_replicate]
      split <;> rfl
    simp only [resample_polyline]
    rw [if_pos hLend]
    subst hpts
    simp

/-- Witness for C10 at a concrete input: a two-point polyline resampled
to three points, plus the degenerate-branch implication. -/
theorem resample_polyline_total_witness :
    (resample_polyline [((0:ℚ), (0:ℚ)), ((1:ℚ), (0:ℚ))] 3).length = 3 ∧
    ((∀ q ∈ [((0:ℚ), (0:ℚ)), ((1:ℚ), (0:ℚ))], q = ((0:ℚ), (0:ℚ))) →
      resample_polyline [((0:ℚ), (0:ℚ)), ((1:ℚ), (0:ℚ))] 3
        = List.replicate 3 ((0:ℚ), (0:ℚ))) :=
  resample_polyline_total [((0:ℚ), (0:ℚ)), ((1:ℚ), (0:ℚ))] ((0:ℚ), (0:ℚ))
    [((1:ℚ), (0:ℚ))] 3 rfl (by norm_num)
